import Mathlib

/-!
# Verification of the `ugrid` uniform spatial grid

Shallow embedding of `src/ugrid.hpp`: a uniform spatial grid used for
broad-phase collision bucketing.  Modelling conventions:

* C++ `float` coordinates are modelled as rationals (`ℚ`); the cast
  `static_cast<uint32_t>` of a non-negative value is truncation, modelled
  as `Int.toNat ∘ Rat.floor`.
* `uint32_t` values are modelled as `Nat`, with an explicit `% 2 ^ 32`
  wherever wraparound is reachable (the `GridCells.X - 1` subtraction in
  `PosToCell`, the `X * GridCells.Y + Y` cell index, and the
  `GridCells.X * GridCells.Y` cell count).  Arena indices are modelled as
  plain `Nat` (they grow by one per allocation and allocation would fail
  long before 2^32 elements).
* The two `UGridList` arenas owned by `UGrid` never have `Ret` called on
  them (the grid has no removal operation), so their free list is
  permanently empty and `Get` always returns the fresh index `Used`,
  growing the storage by one slot.  The grid model therefore represents
  each arena directly as a `List` whose length is `Used` and whose entry
  `0` is the permanently reserved sentinel slot.  The generic arena with
  its free list is modelled separately as `UGridList` below.
* The `while(i)` chain walks of `Optimize` and `Tick` are modelled with a
  fuel parameter equal to the length of the reference arena; in every
  state the program actually reaches, chains are acyclic and shorter than
  the arena, so the fuel never runs out (the C++ loop would not terminate
  on a cyclic chain).
* Both loops `for(Cell = Cells; Cell <= CellsEnd; ++Cell)` visit
  `CellsNum + 1` heads (`CellsEnd` is the one-past-the-end pointer); the
  model mirrors this via `scannedCells` and gives the out-of-range read
  the defaulted value `0` (an empty chain).  The cell table allocated by
  the constructor is never initialised in the C++ source; the model takes
  the idealised all-zero initial table the specification describes.
-/

def U32 : Nat := 2 ^ 32

/-- `UGridPos`: a 2-D point (source: `float X, Y`). -/
structure UGridPos where
  X : ℚ
  Y : ℚ
deriving DecidableEq, Repr

/-- `UGridDim`: a 2-D extent (source: `float W, H`); used by `Insert` as a
symmetric half-extent. -/
structure UGridDim where
  W : ℚ
  H : ℚ
deriving DecidableEq, Repr

/-- `UGridCell`: integer cell coordinates (source: `uint32_t X, Y`). -/
structure UGridCell where
  X : Nat
  Y : Nat
deriving DecidableEq, Repr

/-- `UGridEntity`: position, half-extent, and the compaction scratch field
`Copied` (default `0`, meaning "not yet relocated"). -/
structure UGridEntity where
  Pos : UGridPos
  Dim : UGridDim
  Copied : Nat := 0
deriving DecidableEq, Repr

/-- `UGridReference`: one link record of a cell chain: `Next` is the index of
the next link (0 = end of chain), `Ref` the index of the referenced entity. -/
structure UGridReference where
  Next : Nat
  Ref : Nat
deriving DecidableEq, Repr

instance : Inhabited UGridPos := ⟨⟨0, 0⟩⟩
instance : Inhabited UGridDim := ⟨⟨0, 0⟩⟩
instance : Inhabited UGridCell := ⟨⟨0, 0⟩⟩
instance : Inhabited UGridEntity := ⟨⟨default, default, 0⟩⟩
instance : Inhabited UGridReference := ⟨⟨0, 0⟩⟩

/-!
## The generic arena `UGridList<T>`

Index bookkeeping of the generic recyclable slot store: `Used` slots are in
use (slot 0 reserved), `Size` is the capacity, `Free` the head of the
intrusive free list.  The free-list links that the C++ code overlays onto
freed slots via `reinterpret_cast` are modelled as the association list
`FreeLinks` (latest entry wins, matching overwrite-on-`Ret`).
-/
structure UGridList where
  Used : Nat
  Size : Nat
  Free : Nat
  FreeLinks : List (Nat × Nat)
deriving DecidableEq, Repr

/-- The freshly constructed arena: `Used = 1`, `Size = 1`, `Free = 0`. -/
def UGridList.init : UGridList := ⟨1, 1, 0, []⟩

/-- Read the overlaid free-list link stored in slot `i`. -/
def lookupLink (ls : List (Nat × Nat)) (i : Nat) : Nat :=
  match ls with
  | [] => 0
  | (a, b) :: t => if a = i then b else lookupLink t i

/-- `UGridList::Get`: pop the free list if non-empty, otherwise grow when
full (`Size := 2*Size + 1`) and return the fresh index `Used` (post-increment). -/
def UGridList.Get (l : UGridList) : Nat × UGridList :=
  if l.Free ≠ 0 then
    (l.Free, { l with Free := lookupLink l.FreeLinks l.Free })
  else
    (l.Used,
     { l with
       Used := l.Used + 1
       Size := if l.Used = l.Size then 2 * l.Size + 1 else l.Size })

/-- `UGridList::Ret`: push slot `i` onto the free list, overlaying the old
free head into the slot. -/
def UGridList.Ret (l : UGridList) (i : Nat) : UGridList :=
  { l with FreeLinks := (i, l.Free) :: l.FreeLinks, Free := i }

/-- Arena states reachable through the public interface: the initial state,
`Get`, and `Ret` of a non-sentinel index (callers never release index 0 —
spec §4.1). -/
inductive ReachList : UGridList → Prop where
  | init : ReachList UGridList.init
  | get : ∀ l, ReachList l → ReachList (l.Get).2
  | ret : ∀ l i, ReachList l → i ≠ 0 → ReachList (l.Ret i)

/-!
## The grid itself
-/

/-- `UGrid`: the entity arena, the link-record arena, the cell-head table and
the grid geometry.  The arenas are represented as lists (see module comment);
index 0 of each is the reserved sentinel slot. -/
structure UGrid where
  Entities : List UGridEntity
  References : List UGridReference
  Cells : List Nat
  GridCells : UGridCell
  CellDim : UGridDim
  InverseCellDim : UGridDim
deriving DecidableEq, Repr

/-- The `UGrid` constructor: stores the geometry, precomputes the inverse
cell dimensions, and allocates `GridCells.X * GridCells.Y` cell heads
(a `uint32_t` product).  The C++ code does not initialise the table; the
model takes the idealised all-zero table ("every chain empty"). -/
def mkGrid (cells : UGridCell) (dim : UGridDim) : UGrid :=
  { Entities := [default]
    References := [default]
    Cells := List.replicate (cells.X * cells.Y % U32) 0
    GridCells := cells
    CellDim := dim
    InverseCellDim := ⟨1 / dim.W, 1 / dim.H⟩ }

/-- The number of cells the constructor allocates. -/
def UGrid.cellsNum (g : UGrid) : Nat := g.GridCells.X * g.GridCells.Y % U32

/-- `uint32_t` subtraction of 1 (wraps at 0). -/
def u32sub1 (n : Nat) : Nat := (n + (U32 - 1)) % U32

/-- Truncation of a rational to a natural number, modelling
`static_cast<uint32_t>` of a non-negative `float` (a negative argument is
undefined behaviour in C++ and is clamped to 0 here; `PosToCell` only feeds
it non-negative products for positive cell dimensions). -/
def ratTrunc (q : ℚ) : Nat := q.floor.toNat

/-- `UGrid::PosToCell`: clamp each coordinate to ≥ 0, scale by the inverse
cell dimension, truncate, and clamp to `GridCells - 1` (the subtraction is
`uint32_t` and wraps when the count is 0). -/
def UGrid.PosToCell (g : UGrid) (p : UGridPos) : UGridCell :=
  ⟨min (u32sub1 g.GridCells.X) (ratTrunc (max p.X 0 * g.InverseCellDim.W)),
   min (u32sub1 g.GridCells.Y) (ratTrunc (max p.Y 0 * g.InverseCellDim.H))⟩

/-- The row-major cell index `X * GridCells.Y + Y` (a `uint32_t` expression). -/
def UGrid.cellIndex (g : UGrid) (x y : Nat) : Nat := (x * g.GridCells.Y + y) % U32

/-- The private `UGrid::Insert(Cell, EntityIndex)`: acquire a fresh link
record, point it at the old head, and prepend it to the cell's chain. -/
def UGrid.insertCell (g : UGrid) (ci : Nat) (entityIndex : Nat) : UGrid :=
  let index := g.References.length
  { g with
    References := g.References ++ [⟨g.Cells.getD ci 0, entityIndex⟩]
    Cells := g.Cells.set ci index }

/-- The public `UGrid::Insert(Entity)`: store the entity in a fresh slot,
compute the inclusive cell range of its bounding box, and prepend one link
record to every cell in the range (empty when `Start > End` on an axis,
matching the `uint32_t` `for` loops). -/
def UGrid.Insert (g : UGrid) (e : UGridEntity) : UGrid :=
  let idx := g.Entities.length
  let g1 : UGrid := { g with Entities := g.Entities ++ [e] }
  let s := g1.PosToCell ⟨e.Pos.X - e.Dim.W, e.Pos.Y - e.Dim.H⟩
  let en := g1.PosToCell ⟨e.Pos.X + e.Dim.W, e.Pos.Y + e.Dim.H⟩
  (List.range' s.X (en.X + 1 - s.X)).foldl
    (fun gx x =>
      (List.range' s.Y (en.Y + 1 - s.Y)).foldl
        (fun gy y => gy.insertCell (gy.cellIndex x y) idx) gx)
    g1

/-- The lower corner `Start = PosToCell(Pos - Dim)` of the cell rectangle
`Insert` walks. -/
def UGrid.insStart (g : UGrid) (e : UGridEntity) : UGridCell :=
  g.PosToCell ⟨e.Pos.X - e.Dim.W, e.Pos.Y - e.Dim.H⟩

/-- The upper corner `End = PosToCell(Pos + Dim)` of the cell rectangle
`Insert` walks. -/
def UGrid.insEnd (g : UGrid) (e : UGridEntity) : UGridCell :=
  g.PosToCell ⟨e.Pos.X + e.Dim.W, e.Pos.Y + e.Dim.H⟩

/-- The row-major cell indices `X * GridCells.Y + Y` visited by the nested
`for X / for Y` loops of `Insert`, in loop order. -/
def UGrid.rectCells (g : UGrid) (e : UGridEntity) : List Nat :=
  (List.range' (g.insStart e).X ((g.insEnd e).X + 1 - (g.insStart e).X)).flatMap
    (fun x =>
      (List.range' (g.insStart e).Y ((g.insEnd e).Y + 1 - (g.insStart e).Y)).map
        (fun y => (x * g.GridCells.Y + y) % U32))

/-- The cell-head positions visited by the `Cell <= CellsEnd` loops of
`Optimize` and `Tick`: indices `0 .. Cells.length` INCLUSIVE — one more
entry than the table holds, mirroring the source's loop bound. -/
def UGrid.scannedCells (g : UGrid) : List Nat := List.range (g.Cells.length + 1)

/-!
### Chain walking

`chainStop` returns the index at which a fuelled walk of a chain stops
(0 exactly when the chain terminates within the fuel); `chainRefs` lists the
link-record indices visited.
-/

def chainStop (refs : List UGridReference) : Nat → Nat → Nat
  | 0, i => i
  | fuel + 1, i => if i = 0 then 0 else chainStop refs fuel (refs.getD i default).Next

def chainRefs (refs : List UGridReference) : Nat → Nat → List Nat
  | 0, _ => []
  | fuel + 1, i =>
    if i = 0 then [] else i :: chainRefs refs fuel (refs.getD i default).Next

/-- The head index of cell `ci`. -/
def UGrid.headAt (g : UGrid) (ci : Nat) : Nat := g.Cells.getD ci 0

/-- The link record stored at arena index `i`. -/
def UGrid.refAt (g : UGrid) (i : Nat) : UGridReference := g.References.getD i default

/-- The entity record stored at arena index `v`. -/
def UGrid.entAt (g : UGrid) (v : Nat) : UGridEntity := g.Entities.getD v default

/-- The link-record indices of cell `ci`'s chain. -/
def UGrid.chainIdxs (g : UGrid) (ci : Nat) : List Nat :=
  chainRefs g.References g.References.length (g.headAt ci)

/-- The entity indices of cell `ci`'s chain, in chain order. -/
def UGrid.chainEnts (g : UGrid) (ci : Nat) : List Nat :=
  (g.chainIdxs ci).map (fun i => (g.refAt i).Ref)

/-- The per-cell chain contents of the whole table, in scan order. -/
def UGrid.chains (g : UGrid) : List (List Nat) :=
  (List.range g.Cells.length).map g.chainEnts

/-!
### `UGrid::Optimize`

The compaction pass.  `OptSt` carries the three pieces of state the C++ loop
mutates: the old entity arena (whose `Copied` fields are written), and the
new entity and link arenas being built (each starting with its sentinel
slot).  `optChain` is the inner `while(i)` loop; it returns the new head
index recorded by the `First` write (`none` when the loop body never ran).
-/

structure OptSt where
  oldEnts : List UGridEntity
  newEnts : List UGridEntity
  newRefs : List UGridReference
deriving DecidableEq, Repr

def optChain (refs : List UGridReference) : Nat → Nat → OptSt → OptSt × Option Nat
  | 0, _, s => (s, none)
  | fuel + 1, i, s =>
    if i = 0 then (s, none) else
      let re := refs.getD i default
      let e := s.oldEnts.getD re.Ref default
      let copied := if e.Copied = 0 then s.newEnts.length else e.Copied
      let oldEnts :=
        if e.Copied = 0 then
          s.oldEnts.set re.Ref { e with Copied := s.newEnts.length }
        else s.oldEnts
      let newEnts := if e.Copied = 0 then s.newEnts ++ [e] else s.newEnts
      let myIdx := s.newRefs.length
      let nextF := if re.Next = 0 then 0 else myIdx + 1
      ((optChain refs fuel re.Next ⟨oldEnts, newEnts, s.newRefs ++ [⟨nextF, copied⟩]⟩).1,
       some myIdx)

/-- One iteration of `Optimize`'s outer `for` loop: run the chain walk on
cell `ci`'s head and, when the walk ran at all, overwrite the head with the
first rebuilt link's index (the `First` write). -/
def UGrid.optStep (g : UGrid) (acc : OptSt × List Nat) (ci : Nat) : OptSt × List Nat :=
  match optChain g.References g.References.length (acc.2.getD ci 0) acc.1 with
  | (s, none) => (s, acc.2)
  | (s, some h) => (s, acc.2.set ci h)

/-- The state `Optimize` starts from: the old entity arena, and fresh arenas
holding only their sentinel slots (the copy constructor leaves `Used = 1`). -/
def UGrid.optInit (g : UGrid) : OptSt × List Nat :=
  (⟨g.Entities, [default], [default]⟩, g.Cells)

/-- `UGrid::Optimize`: walk every cell head (including the out-of-range one,
see `scannedCells`), rebuild both arenas in discovery order, and overwrite
each non-empty cell's head with the index of its first rebuilt link. -/
def UGrid.Optimize (g : UGrid) : UGrid :=
  let r := g.scannedCells.foldl g.optStep g.optInit
  { g with Entities := r.1.newEnts, References := r.1.newRefs, Cells := r.2 }

/-!
### `UGrid::Tick`'s broad-phase scan
-/

/-- The inner `while(j)` loop: walk the rest of the chain, counting every
referent not strictly below the watermark. -/
def innerScan (refs : List UGridReference) (W : Nat) : Nat → Nat → Nat
  | 0, _ => 0
  | fuel + 1, j =>
    if j = 0 then 0 else
      let o := refs.getD j default
      (if o.Ref < W then 0 else 1) + innerScan refs W fuel o.Next

/-- The outer `while(i)` loop of one cell: returns the local maximum referent
and the collisions counted in this cell (a referent at or below the
watermark contributes no pairs). -/
def outerScan (refs : List UGridReference) (W : Nat) : Nat → Nat → Nat × Nat
  | 0, _ => (0, 0)
  | fuel + 1, i =>
    if i = 0 then (0, 0) else
      let r := refs.getD i default
      let rest := outerScan refs W fuel r.Next
      (max r.Ref rest.1,
       (if r.Ref ≤ W then 0 else innerScan refs W fuel r.Next) + rest.2)

/-- One iteration of the scan's outer `for` loop: scan cell `ci` with the
current watermark, then raise the watermark to the cell's local maximum and
accumulate the collisions counted in the cell. -/
def UGrid.scanStep (g : UGrid) (acc : Nat × Nat) (ci : Nat) : Nat × Nat :=
  let r := outerScan g.References acc.1 g.References.length (g.Cells.getD ci 0)
  (max acc.1 r.1, acc.2 + r.2)

/-- The collision count computed by `Tick`'s scan over an (already
compacted) grid: fold over all scanned cell heads, threading the global
watermark, which is raised to the cell's local maximum after each cell. -/
def UGrid.scanCount (g : UGrid) : Nat :=
  (g.scannedCells.foldl g.scanStep (0, 0)).2

/-- `UGrid::Tick`: run `Optimize`, then the broad-phase scan.  The pair
returned is (the grid state after the call, the collision count the C++
code streams to `std::cout`).  The C++ member function itself is `void`:
see `UGrid.TickRet`. -/
def UGrid.Tick (g : UGrid) : UGrid × Nat :=
  let g1 := g.Optimize
  (g1, g1.scanCount)

/-- The value `Tick` returns to its caller: the C++ declaration is
`void Tick()`, so the result type is the unit type and carries nothing. -/
def UGrid.TickRet (_ : UGrid) : Unit := ()

/-- The line `Tick` prints to standard output. -/
def UGrid.TickOut (g : UGrid) : String :=
  toString (g.Tick).2 ++ " registered broad collisions"

/-!
## Grid states reachable through the public interface
-/

/-- Grid states produced by the public API: construction, `Insert` of an
entity whose scratch field is untouched (spec §3: `CompactedIndex` is owned
by the compactor; callers never set it), and `Tick`.  Construction is
restricted to geometries whose cell count `X * Y` does not overflow
`uint32`: beyond that the C++ `Insert` indexes past the allocated cell
table (undefined behaviour), so such grids have no defined behaviour to
model. -/
inductive Reach : UGrid → Prop where
  | init : ∀ cells dim, cells.X * cells.Y < U32 → Reach (mkGrid cells dim)
  | insert : ∀ g e, Reach g → e.Copied = 0 → Reach (g.Insert e)
  | tick : ∀ g, Reach g → Reach (g.Optimize)

/-!
## The slot arena (`UGridList`)

`UGridList` hands out slot indices: `Get` pops the intrusive free list when
it is non-empty and otherwise returns the post-incremented `Used` counter
(which starts at 1, slot 0 being the permanent sentinel).  `Ret` pushes a
slot onto the free list.  The in-place linked free list is modelled by the
list of indices it holds, in pop order.
-/

structure SlotArena where
  Used : Nat
  FreeList : List Nat
deriving DecidableEq, Repr

/-- A fresh `UGridList`: `Used = 1`, `Free = 0` (empty free list). -/
def SlotArena.init : SlotArena := ⟨1, []⟩

/-- `UGridList::Get`: pop the free list if non-empty, else take `Used++`. -/
def SlotArena.Get (a : SlotArena) : Nat × SlotArena :=
  match a.FreeList with
  | f :: t => (f, ⟨a.Used, t⟩)
  | [] => (a.Used, ⟨a.Used + 1, []⟩)

/-- `UGridList::Ret`: push a slot onto the free list. -/
def SlotArena.Ret (a : SlotArena) (i : Nat) : SlotArena := ⟨a.Used, i :: a.FreeList⟩

/-- Arena states reachable through `Get` and `Ret`; `Ret` is only ever
called on indices the arena previously handed out (1 ≤ i < Used), which is
how every caller in the code base uses it. -/
inductive ReachArena : SlotArena → Prop where
  | init : ReachArena SlotArena.init
  | get : ∀ a, ReachArena a → ReachArena (a.Get).2
  | ret : ∀ a i, ReachArena a → 1 ≤ i → i < a.Used → ReachArena (a.Ret i)

/-!
## Specification-side definitions

`coPairCount` is the quantity the specification says the scan computes: the
number of unordered entity pairs that co-occur in at least one cell.
-/

/-- The unordered pairs (normalised as `(a, b)` with `a < b`) of entities
sharing the single cell chain `c`. -/
def cellPairs (c : List Nat) : Finset (Nat × Nat) :=
  (c.toFinset ×ˢ c.toFinset).filter (fun p => p.1 < p.2)

/-- The unordered pairs of entities co-occurring in at least one of the
cells `css`. -/
def coPairs (css : List (List Nat)) : Finset (Nat × Nat) :=
  css.foldr (fun c acc => cellPairs c ∪ acc) ∅

/-- The number of unordered entity pairs that co-occur in at least one cell
of the grid — the value the specification claims `Tick` computes. -/
def UGrid.coPairCount (g : UGrid) : Nat := (coPairs g.chains).card

/-!
## Pure recursion mirrors of the scan

`countCell` / `scanPure` recompute the scan on the extracted per-cell entity
lists; the fuelled arena walk is proved equal to them on well-formed grids.
-/

/-- Pairs counted inside one cell, outer referent `r` against the remainder
of the chain, under watermark `W`. -/
def countCell (W : Nat) : List Nat → Nat
  | [] => 0
  | r :: t => (if r ≤ W then 0 else t.countP (fun r2 => decide (W ≤ r2))) + countCell W t

/-- The maximum of a list of entity indices (0 when empty). -/
def maxL (c : List Nat) : Nat := c.foldr max 0

/-- The whole scan over per-cell entity lists, threading the watermark. -/
def scanPure (W : Nat) : List (List Nat) → Nat
  | [] => 0
  | c :: cs => countCell W c + scanPure (max W (maxL c)) cs

/-!
## First-appearance order and the closed form of `Optimize`
-/

/-- The elements of a stream in first-appearance order, skipping those in
`seen`. -/
def firstsAux (seen : List Nat) : List Nat → List Nat
  | [] => []
  | v :: t => if v ∈ seen then firstsAux seen t else v :: firstsAux (v :: seen) t

/-- The distinct elements of a stream, in order of first appearance. -/
def firsts (l : List Nat) : List Nat := firstsAux [] l

/-- The 1-based first-appearance rank of `v` in the stream `l` — the index
`Optimize` assigns to the entity `v` when `l` is the concatenated cell
walk. -/
def grank (l : List Nat) (v : Nat) : Nat := (firsts l).indexOf v + 1

/-- Renumber every chain by first-appearance rank over the concatenated
walk — the effect of compaction on chain contents. -/
def renumber (css : List (List Nat)) : List (List Nat) :=
  css.map (List.map (grank css.flatten))

/-- The rebuilt link records of one chain, laid out contiguously from
position `base`. -/
def buildBlock (base : Nat) : List Nat → List UGridReference
  | [] => []
  | v :: t => ⟨if t = [] then 0 else base + 1, v⟩ :: buildBlock (base + 1) t

/-- The rebuilt link arena (without its sentinel): the blocks of all chains
in cell order, starting at position `base`. -/
def buildRefs (base : Nat) : List (List Nat) → List UGridReference
  | [] => []
  | c :: cs => buildBlock base c ++ buildRefs (base + c.length) cs

/-- The rebuilt cell-head table: each non-empty chain heads at its block's
base position; empty chains keep head 0. -/
def buildHeads (base : Nat) : List (List Nat) → List Nat
  | [] => []
  | c :: cs => (if c = [] then 0 else base) :: buildHeads (base + c.length) cs

/-- The closed form of `Optimize` on well-formed grids: entities in
first-discovery order, link records in contiguous per-cell blocks over the
renumbered chains, heads at the block bases. -/
def optimizeSpec (g : UGrid) : UGrid :=
  { g with
    Entities := default :: (firsts g.chains.flatten).map g.entAt
    References := default :: buildRefs 1 (renumber g.chains)
    Cells := buildHeads 1 (renumber g.chains) }

/-- The distinct reachable entities of the grid, as records, in the order
compaction discovers them. -/
def UGrid.reachPayloads (g : UGrid) : List UGridEntity :=
  (firsts g.chains.flatten).map g.entAt

/-- The scan-order position of the first cell whose chain contains `v`. -/
def firstCellIdx (css : List (List Nat)) (v : Nat) : Nat :=
  css.findIdx (fun c => c.contains v)

/-- A stream is canonical when every element equals its own first-appearance
rank — the invariant compaction establishes. -/
def Canonical (l : List Nat) : Prop := ∀ v ∈ l, grank l v = v

/-!
## Well-formedness

The structural invariant every reachable grid satisfies; it is exactly what
the fuelled walks need in order to agree with the pure recursions.
-/

structure WF (g : UGrid) : Prop where
  refs_ne : 1 ≤ g.References.length
  ents_ne : 1 ≤ g.Entities.length
  term : ∀ ci < g.Cells.length,
    chainStop g.References g.References.length (g.headAt ci) = 0
  idx_lt : ∀ ci < g.Cells.length, ∀ i ∈ g.chainIdxs ci, i < g.References.length
  ref_pos : ∀ ci < g.Cells.length, ∀ i ∈ g.chainIdxs ci, 1 ≤ (g.refAt i).Ref
  ref_lt : ∀ ci < g.Cells.length, ∀ i ∈ g.chainIdxs ci,
    (g.refAt i).Ref < g.Entities.length
  copied0 : ∀ v < g.Entities.length, (g.entAt v).Copied = 0
  nodup : ∀ ci < g.Cells.length, (g.chainEnts ci).Nodup

/-- The full reachability invariant: structural well-formedness, the cell
table still has its construction-time length, and the geometry does not
overflow `uint32`. -/
structure RInv (g : UGrid) : Prop where
  wf : WF g
  cells_len : g.Cells.length = g.GridCells.X * g.GridCells.Y % U32
  geom : g.GridCells.X * g.GridCells.Y < U32

/-!
## Concrete grids used by the scenario theorems
-/

/-- A 1×2 grid of unit cells. -/
def gNarrow : UGrid := mkGrid ⟨1, 2⟩ ⟨1, 1⟩

/-- An entity occupying only the upper cell of `gNarrow`. -/
def entUpper : UGridEntity := ⟨⟨1/2, 3/2⟩, ⟨0, 0⟩, 0⟩

/-- An entity spanning both cells of `gNarrow`. -/
def entTall : UGridEntity := ⟨⟨1/2, 1⟩, ⟨0, 1/2⟩, 0⟩

/-- `entUpper` inserted first, then `entTall`: the two co-occur in the upper
cell. -/
def gDemo : UGrid := (gNarrow.Insert entUpper).Insert entTall

/-- Spec §8 scenario: a 1×1 grid of 100×100 cells with two overlapping
entities. -/
def gOneCell : UGrid :=
  ((mkGrid ⟨1, 1⟩ ⟨100, 100⟩).Insert ⟨⟨10, 10⟩, ⟨5, 5⟩, 0⟩).Insert ⟨⟨12, 12⟩, ⟨5, 5⟩, 0⟩

/-- Spec §8 scenario: far-apart entities in a 10×10 grid of 10×10 cells. -/
def gFarApart : UGrid :=
  ((mkGrid ⟨10, 10⟩ ⟨10, 10⟩).Insert ⟨⟨5, 5⟩, ⟨1, 1⟩, 0⟩).Insert ⟨⟨95, 95⟩, ⟨1, 1⟩, 0⟩

/-- A 1×1 grid of unit cells. -/
def gUnit : UGrid := mkGrid ⟨1, 1⟩ ⟨1, 1⟩

/-- A point entity at the origin. -/
def ePoint : UGridEntity := ⟨⟨0, 0⟩, ⟨0, 0⟩, 0⟩

/-- Two coincident point entities in the single cell of `gUnit`: one
co-occurring pair, which the scan does count. -/
def gPair : UGrid := (gUnit.Insert ePoint).Insert ePoint

/-!
# Lemmas

## Fuelled chain walks
-/

theorem chainStop_zero (refs : List UGridReference) (f : Nat) :
    chainStop refs f 0 = 0 := by
  cases f <;> simp [chainStop]

theorem chainRefs_zero (refs : List UGridReference) (f : Nat) :
    chainRefs refs f 0 = [] := by
  cases f <;> simp [chainRefs]

theorem chainStop_succ (refs : List UGridReference) (f i : Nat) (hi : i ≠ 0) :
    chainStop refs (f + 1) i = chainStop refs f (refs.getD i default).Next := by
  simp [chainStop, hi]

theorem chainRefs_succ (refs : List UGridReference) (f i : Nat) (hi : i ≠ 0) :
    chainRefs refs (f + 1) i = i :: chainRefs refs f (refs.getD i default).Next := by
  simp [chainRefs, hi]

theorem chainStop_succ_of_zero (refs : List UGridReference) :
    ∀ f i, chainStop refs f i = 0 → chainStop refs (f + 1) i = 0 := by
  intro f
  induction f with
  | zero => intro i h; simp [chainStop] at h; simp [h, chainStop_zero]
  | succ f ih =>
    intro i h
    by_cases hi : i = 0
    · simp [hi, chainStop_zero]
    · rw [chainStop_succ _ _ _ hi] at h
      rw [chainStop_succ _ _ _ hi]
      exact ih _ h

theorem chainStop_of_le (refs : List UGridReference) {f f' i : Nat} (hle : f ≤ f')
    (h : chainStop refs f i = 0) : chainStop refs f' i = 0 := by
  induction f' with
  | zero => have : f = 0 := Nat.le_zero.mp hle; cases this; exact h
  | succ n ih =>
    rcases Nat.lt_or_ge f (n + 1) with hf | hf
    · exact chainStop_succ_of_zero refs n i (ih (Nat.lt_succ_iff.mp hf))
    · have : f = n + 1 := Nat.le_antisymm hle hf
      cases this; exact h

theorem chainRefs_of_le (refs : List UGridReference) :
    ∀ f, ∀ {f' i : Nat}, f ≤ f' → chainStop refs f i = 0 →
      chainRefs refs f' i = chainRefs refs f i := by
  intro f
  induction f with
  | zero =>
    intro f' i _ h
    simp [chainStop] at h
    simp [h, chainRefs_zero, chainRefs]
  | succ n ih =>
    intro f' i hle h
    by_cases hi : i = 0
    · simp [hi, chainRefs_zero]
    · obtain ⟨m, rfl⟩ : ∃ m, f' = m + 1 :=
        ⟨f' - 1, by omega⟩
      rw [chainRefs_succ _ _ _ hi, chainRefs_succ _ _ _ hi]
      rw [chainStop_succ _ _ _ hi] at h
      exact congrArg _ (ih (by omega) h)

theorem chainRefs_ne_zero (refs : List UGridReference) :
    ∀ f i, ∀ j ∈ chainRefs refs f i, j ≠ 0 := by
  intro f
  induction f with
  | zero => intro i j hj; simp [chainRefs] at hj
  | succ n ih =>
    intro i j hj
    by_cases hi : i = 0
    · simp [hi, chainRefs_zero] at hj
    · rw [chainRefs_succ _ _ _ hi] at hj
      rcases List.mem_cons.mp hj with h | h
      · exact h ▸ hi
      · exact ih _ j h

/-!
## First-appearance order
-/

theorem firstsAux_congr (s₁ s₂ : List Nat) (h : ∀ x : Nat, x ∈ s₁ ↔ x ∈ s₂) :
    ∀ l, firstsAux s₁ l = firstsAux s₂ l
  | [] => rfl
  | v :: t => by
    by_cases hv : v ∈ s₁
    · rw [firstsAux, firstsAux, if_pos hv, if_pos ((h v).1 hv)]
      exact firstsAux_congr s₁ s₂ h t
    · rw [firstsAux, firstsAux, if_neg hv, if_neg (fun hx => hv ((h v).2 hx))]
      refine congrArg _ (firstsAux_congr _ _ (fun x => ?_) t)
      simp only [List.mem_cons, h x]

theorem mem_firstsAux (x : Nat) :
    ∀ (l s : List Nat), x ∈ firstsAux s l ↔ x ∈ l ∧ x ∉ s
  | [], s => by simp [firstsAux]
  | v :: t, s => by
    by_cases hv : v ∈ s
    · rw [firstsAux, if_pos hv, mem_firstsAux x t s]
      constructor
      · rintro ⟨h1, h2⟩; exact ⟨List.mem_cons_of_mem _ h1, h2⟩
      · rintro ⟨h1, h2⟩
        rcases List.mem_cons.mp h1 with rfl | h1
        · exact absurd hv h2
        · exact ⟨h1, h2⟩
    · rw [firstsAux, if_neg hv, List.mem_cons, mem_firstsAux x t (v :: s)]
      constructor
      · rintro (rfl | ⟨h1, h2⟩)
        · exact ⟨List.mem_cons_self _ _, hv⟩
        · exact ⟨List.mem_cons_of_mem _ h1, fun hx => h2 (List.mem_cons_of_mem _ hx)⟩
      · rintro ⟨h1, h2⟩
        by_cases hxv : x = v
        · exact Or.inl hxv
        · rcases List.mem_cons.mp h1 with rfl | h1
          · exact Or.inl rfl
          · exact Or.inr ⟨h1, fun hx => by
              rcases List.mem_cons.mp hx with h | h
              · exact hxv h
              · exact h2 h⟩

theorem firstsAux_append (a b s : List Nat) :
    firstsAux s (a ++ b) = firstsAux s a ++ firstsAux (a ++ s) b := by
  induction a generalizing s with
  | nil => simp [firstsAux]
  | cons v t ih =>
    by_cases hv : v ∈ s
    · rw [List.cons_append, firstsAux, if_pos hv, firstsAux, if_pos hv, ih]
      refine congrArg _ (firstsAux_congr _ _ (fun x => ?_) b)
      constructor
      · intro hx; rcases List.mem_append.mp hx with h | h
        · exact List.mem_append_left _ (List.mem_cons_of_mem _ h)
        · exact List.mem_append_right _ h
      · intro hx
        rcases List.mem_append.mp hx with h | h
        · rcases List.mem_cons.mp h with rfl | h
          · exact List.mem_append_right _ hv
          · exact List.mem_append_left _ h
        · exact List.mem_append_right _ h
    · rw [List.cons_append, firstsAux, if_neg hv, firstsAux, if_neg hv, ih,
        List.cons_append]
      refine congrArg _ (congrArg _ (firstsAux_congr _ _ (fun x => ?_) b))
      constructor
      · intro hx
        rcases List.mem_append.mp hx with h | h
        · exact List.mem_cons_of_mem _ (List.mem_append_left _ h)
        · rcases List.mem_cons.mp h with rfl | h
          · exact List.mem_cons_self _ _
          · exact List.mem_cons_of_mem _ (List.mem_append_right _ h)
      · intro hx
        rcases List.mem_cons.mp hx with rfl | h
        · exact List.mem_append_right _ (List.mem_cons_self _ _)
        · rcases List.mem_append.mp h with h | h
          · exact List.mem_append_left _ h
          · exact List.mem_append_right _ (List.mem_cons_of_mem _ h)

theorem nodup_firstsAux : ∀ (l s : List Nat), (firstsAux s l).Nodup
  | [], _ => List.nodup_nil
  | v :: t, s => by
    by_cases hv : v ∈ s
    · rw [firstsAux, if_pos hv]; exact nodup_firstsAux t s
    · rw [firstsAux, if_neg hv]
      refine List.nodup_cons.mpr ⟨fun hx => ?_, nodup_firstsAux t (v :: s)⟩
      exact ((mem_firstsAux v t (v :: s)).mp hx).2 (List.mem_cons_self _ _)

theorem mem_firsts (x : Nat) (l : List Nat) : x ∈ firsts l ↔ x ∈ l := by
  rw [firsts, mem_firstsAux]; simp

theorem firsts_nodup (l : List Nat) : (firsts l).Nodup := nodup_firstsAux l []

theorem firsts_append (a b : List Nat) :
    firsts (a ++ b) = firsts a ++ firstsAux a b := by
  rw [firsts, firstsAux_append, firsts]
  refine congrArg _ (firstsAux_congr _ _ (fun x => ?_) b)
  simp

theorem firsts_append_mem (a : List Nat) {v : Nat} (hv : v ∈ a) :
    firsts (a ++ [v]) = firsts a := by
  rw [firsts_append, firstsAux, if_pos (by simpa using hv)]
  simp [firstsAux]

theorem firsts_append_new (a : List Nat) {v : Nat} (hv : v ∉ a) :
    firsts (a ++ [v]) = firsts a ++ [v] := by
  rw [firsts_append, firstsAux, if_neg (by simpa using hv)]
  simp [firstsAux]

/-!
## Rank lemmas
-/

theorem grank_pos (l : List Nat) (v : Nat) : 1 ≤ grank l v :=
  Nat.succ_le_succ (Nat.zero_le _)

theorem grank_le_length {l : List Nat} {v : Nat} (hv : v ∈ l) :
    grank l v ≤ (firsts l).length := by
  have : (firsts l).indexOf v < (firsts l).length :=
    List.indexOf_lt_length.mpr ((mem_firsts v l).mpr hv)
  rw [grank]
  omega

theorem grank_stable {v : Nat} (a b : List Nat) (hv : v ∈ a) :
    grank (a ++ b) v = grank a v := by
  rw [grank, grank, firsts_append,
    List.indexOf_append_of_mem ((mem_firsts v a).mpr hv)]

theorem grank_snoc_new (a : List Nat) {v : Nat} (hv : v ∉ a) :
    grank (a ++ [v]) v = (firsts a).length + 1 := by
  rw [grank, firsts_append_new a hv,
    List.indexOf_append_of_not_mem (fun h => hv ((mem_firsts v a).mp h))]
  simp

theorem grank_inj {l : List Nat} {u v : Nat} (hu : u ∈ l) (hv : v ∈ l)
    (h : grank l u = grank l v) : u = v := by
  have hu' : (firsts l).indexOf u < (firsts l).length :=
    List.indexOf_lt_length.mpr ((mem_firsts u l).mpr hu)
  have hv' : (firsts l).indexOf v < (firsts l).length :=
    List.indexOf_lt_length.mpr ((mem_firsts v l).mpr hv)
  have hidx : (firsts l).indexOf u = (firsts l).indexOf v := by
    rw [grank, grank] at h; omega
  have h1 : (firsts l)[(firsts l).indexOf u]? = some u :=
    List.getElem?_indexOf ((mem_firsts u l).mpr hu)
  have h2 : (firsts l)[(firsts l).indexOf v]? = some v :=
    List.getElem?_indexOf ((mem_firsts v l).mpr hv)
  rw [hidx] at h1
  rw [h1] at h2
  exact (Option.some.injEq _ _).mp h2

theorem firstsAux_map (f : Nat → Nat) :
    ∀ (l s : List Nat), (∀ x ∈ l, ∀ y, (y ∈ s ∨ y ∈ l) → f x = f y → x = y) →
      firstsAux (s.map f) (l.map f) = (firstsAux s l).map f
  | [], s, _ => rfl
  | v :: t, s, hinj => by
    have hv : v ∈ v :: t := List.mem_cons_self _ _
    have hmem : f v ∈ s.map f ↔ v ∈ s := by
      constructor
      · intro h
        rcases List.mem_map.mp h with ⟨y, hy, hfy⟩
        exact (hinj v hv y (Or.inl hy) hfy.symm) ▸ hy
      · intro h; exact List.mem_map.mpr ⟨v, h, rfl⟩
    by_cases hvs : v ∈ s
    · rw [List.map_cons, firstsAux, if_pos (hmem.mpr hvs), firstsAux, if_pos hvs]
      exact firstsAux_map f t s (fun x hx y hy => hinj x (List.mem_cons_of_mem _ hx) y
        (hy.imp id (List.mem_cons_of_mem _)))
    · rw [List.map_cons, firstsAux, if_neg (fun h => hvs (hmem.mp h)), firstsAux,
        if_neg hvs, List.map_cons]
      refine congrArg _ ?_
      have : (v :: s).map f = f v :: s.map f := rfl
      rw [← this]
      exact firstsAux_map f t (v :: s) (fun x hx y hy => by
        refine hinj x (List.mem_cons_of_mem _ hx) y ?_
        rcases hy with hy | hy
        · rcases List.mem_cons.mp hy with rfl | hy
          · exact Or.inr hv
          · exact Or.inl hy
        · exact Or.inr (List.mem_cons_of_mem _ hy))

theorem firsts_map (f : Nat → Nat) (l : List Nat)
    (hinj : ∀ x ∈ l, ∀ y ∈ l, f x = f y → x = y) :
    firsts (l.map f) = (firsts l).map f := by
  rw [firsts, firsts]
  have : ([] : List Nat) = ([] : List Nat).map f := rfl
  rw [this]
  exact firstsAux_map f l [] (fun x hx y hy => by
    rcases hy with hy | hy
    · simp at hy
    · exact hinj x hx y hy)

theorem indexOf_map_inj (f : Nat → Nat) :
    ∀ (l : List Nat) (v : Nat), v ∈ l → (∀ x ∈ l, f x = f v → x = v) →
      (l.map f).indexOf (f v) = l.indexOf v
  | [], v, hv, _ => by simp at hv
  | w :: t, v, hv, hinj => by
    by_cases hwv : w = v
    · subst hwv
      rw [List.map_cons, List.indexOf_cons_self, List.indexOf_cons_self]
    · have hfwv : f w ≠ f v := fun h => hwv (hinj w (List.mem_cons_self _ _) h)
      have hvt : v ∈ t := by
        rcases List.mem_cons.mp hv with rfl | h
        · exact absurd rfl hwv
        · exact h
      rw [List.map_cons, List.indexOf_cons_ne _ hfwv, List.indexOf_cons_ne _ hwv,
        indexOf_map_inj f t v hvt (fun x hx => hinj x (List.mem_cons_of_mem _ hx))]

theorem grank_map_grank (l : List Nat) {v : Nat} (hv : v ∈ l) :
    grank (l.map (grank l)) (grank l v) = grank l v := by
  have hinj : ∀ x ∈ l, ∀ y ∈ l, grank l x = grank l y → x = y :=
    fun x hx y hy h => grank_inj hx hy h
  rw [grank, firsts_map (grank l) l hinj,
    indexOf_map_inj (grank l) (firsts l) v ((mem_firsts v l).mpr hv)
      (fun x hx h => grank_inj ((mem_firsts x l).mp hx) hv h), grank]

theorem canonical_map_grank (l : List Nat) : Canonical (l.map (grank l)) := by
  intro w hw
  rcases List.mem_map.mp hw with ⟨v, hv, rfl⟩
  exact grank_map_grank l hv

theorem renumber_flatten (css : List (List Nat)) :
    (renumber css).flatten = css.flatten.map (grank css.flatten) := by
  rw [renumber, ← List.map_flatten]

theorem canonical_renumber (css : List (List Nat)) :
    Canonical (renumber css).flatten := by
  rw [renumber_flatten]
  exact canonical_map_grank css.flatten

theorem renumber_of_canonical {css : List (List Nat)}
    (h : Canonical css.flatten) : renumber css = css := by
  rw [renumber]
  have : ∀ c ∈ css, c.map (grank css.flatten) = c := by
    intro c hc
    have : ∀ v ∈ c, grank css.flatten v = v :=
      fun v hv => h v (List.mem_flatten.mpr ⟨c, hc, hv⟩)
    rw [List.map_congr_left this]; exact List.map_id' c
  rw [List.map_congr_left this]; exact List.map_id' css

theorem firsts_of_canonical {l : List Nat} (h : Canonical l) :
    firsts l = List.range' 1 (firsts l).length := by
  refine List.ext_getElem (by simp) ?_
  intro i h1 h2
  have hmem : (firsts l)[i] ∈ l := (mem_firsts _ l).mp (List.getElem_mem h1)
  have := h _ hmem
  rw [grank] at this
  rw [List.indexOf_getElem (firsts_nodup l) i h1] at this
  have : (firsts l)[i] = i + 1 := this.symm
  rw [this]
  rw [List.getElem_range'_1]
  omega

/-!
## The scan never counts a pair twice: pure counting bound
-/

theorem maxL_cons (a : Nat) (t : List Nat) : maxL (a :: t) = max a (maxL t) := rfl

theorem le_maxL {c : List Nat} : ∀ x ∈ c, x ≤ maxL c := by
  induction c with
  | nil => simp
  | cons a t ih =>
    intro x hx
    rcases List.mem_cons.mp hx with rfl | hx
    · rw [maxL_cons]; exact le_max_left _ _
    · rw [maxL_cons]; exact le_trans (ih x hx) (le_max_right _ _)

theorem mem_cellPairs {c : List Nat} {p : Nat × Nat} :
    p ∈ cellPairs c ↔ p.1 ∈ c ∧ p.2 ∈ c ∧ p.1 < p.2 := by
  rw [cellPairs, Finset.mem_filter, Finset.mem_product]
  simp [List.mem_toFinset, and_assoc]

theorem coPairs_cons (c : List Nat) (cs : List (List Nat)) :
    coPairs (c :: cs) = cellPairs c ∪ coPairs cs := rfl

theorem countCell_le (W : Nat) : ∀ (c : List Nat), c.Nodup →
    countCell W c ≤ ((cellPairs c).filter (fun p => W < max p.1 p.2)).card
  | [], _ => by simp [countCell]
  | r :: t, hnd => by
    obtain ⟨hrt, hndt⟩ := List.nodup_cons.mp hnd
    have IH := countCell_le W t hndt
    have hsubA : (cellPairs t).filter (fun p => W < max p.1 p.2) ⊆
        (cellPairs (r :: t)).filter (fun p => W < max p.1 p.2) := by
      intro p hp
      rw [Finset.mem_filter] at hp ⊢
      refine ⟨?_, hp.2⟩
      rw [mem_cellPairs] at hp ⊢
      exact ⟨List.mem_cons_of_mem _ hp.1.1, List.mem_cons_of_mem _ hp.1.2.1, hp.1.2.2⟩
    rw [countCell]
    by_cases hW : r ≤ W
    · rw [if_pos hW, Nat.zero_add]
      exact le_trans IH (Finset.card_le_card hsubA)
    · rw [if_neg hW]
      set Pr : Finset (Nat × Nat) :=
        ((t.filter (fun x => decide (W ≤ x))).toFinset).image
          (fun x => (min r x, max r x)) with hPrDef
      have hcardPr : Pr.card = t.countP (fun r2 => decide (W ≤ r2)) := by
        rw [hPrDef, Finset.card_image_of_injOn, List.toFinset_card_of_nodup
          (hndt.filter _), List.countP_eq_length_filter]
        intro x hx y hy hxy
        simp only [Finset.mem_coe, List.mem_toFinset] at hx hy
        have hx' := List.mem_of_mem_filter hx
        have hy' := List.mem_of_mem_filter hy
        have h1 : min r x + max r x = min r y + max r y := by
          rw [Prod.mk.injEq] at hxy; omega
        rw [min_add_max, min_add_max] at h1
        omega
      have hsubPr : Pr ⊆ (cellPairs (r :: t)).filter (fun p => W < max p.1 p.2) := by
        intro p hp
        rw [hPrDef, Finset.mem_image] at hp
        obtain ⟨x, hx, rfl⟩ := hp
        rw [List.mem_toFinset, List.mem_filter] at hx
        have hxr : r ≠ x := fun h => hrt (h ▸ hx.1)
        rw [Finset.mem_filter, mem_cellPairs]
        have hmm : max (min r x) (max r x) = max r x := max_eq_right (min_le_max)
        refine ⟨⟨?_, ?_, inf_lt_sup.mpr hxr⟩, ?_⟩
        · rcases min_choice r x with h | h <;> rw [h]
          · exact List.mem_cons_self _ _
          · exact List.mem_cons_of_mem _ hx.1
        · rcases max_choice r x with h | h <;> rw [h]
          · exact List.mem_cons_self _ _
          · exact List.mem_cons_of_mem _ hx.1
        · show W < max (min r x) (max r x)
          rw [hmm]
          exact lt_of_lt_of_le (Nat.lt_of_not_le hW) (le_max_left _ _)
      have hdisj : Disjoint Pr ((cellPairs t).filter (fun p => W < max p.1 p.2)) := by
        rw [Finset.disjoint_left]
        intro p hp hp'
        rw [hPrDef, Finset.mem_image] at hp
        obtain ⟨x, hx, rfl⟩ := hp
        rw [Finset.mem_filter, mem_cellPairs] at hp'
        have h1 := hp'.1.1
        have h2 := hp'.1.2.1
        rcases min_choice r x with h | h
        · rw [h] at h1; exact hrt h1
        · rcases max_choice r x with h' | h'
          · rw [h'] at h2; exact hrt h2
          · have hxr : r ≠ x := fun hh => hrt (hh ▸ (List.mem_toFinset.mp hx |> List.mem_of_mem_filter))
            have : min r x = x := h
            have : max r x = x := h'
            have := inf_lt_sup.mpr hxr
            omega
      calc t.countP (fun r2 => decide (W ≤ r2)) + countCell W t
          ≤ Pr.card + ((cellPairs t).filter (fun p => W < max p.1 p.2)).card := by
            rw [hcardPr]; exact Nat.add_le_add_left IH _
        _ = (Pr ∪ (cellPairs t).filter (fun p => W < max p.1 p.2)).card :=
            (Finset.card_union_of_disjoint hdisj).symm
        _ ≤ ((cellPairs (r :: t)).filter (fun p => W < max p.1 p.2)).card := by
            refine Finset.card_le_card ?_
            intro p hp
            rcases Finset.mem_union.mp hp with h | h
            · exact hsubPr h
            · exact hsubA h

theorem scanPure_le : ∀ (css : List (List Nat)) (W : Nat), (∀ c ∈ css, c.Nodup) →
    scanPure W css ≤ ((coPairs css).filter (fun p => W < max p.1 p.2)).card
  | [], W, _ => by simp [scanPure, coPairs]
  | c :: cs, W, hnd => by
    have h1 := countCell_le W c (hnd c (List.mem_cons_self _ _))
    have IH := scanPure_le cs (max W (maxL c))
      (fun x hx => hnd x (List.mem_cons_of_mem _ hx))
    have hsubA : (cellPairs c).filter (fun p => W < max p.1 p.2) ⊆
        (coPairs (c :: cs)).filter (fun p => W < max p.1 p.2) := by
      intro p hp
      rw [Finset.mem_filter] at hp ⊢
      exact ⟨coPairs_cons c cs ▸ Finset.mem_union_left _ hp.1, hp.2⟩
    have hsubB : (coPairs cs).filter (fun p => max W (maxL c) < max p.1 p.2) ⊆
        (coPairs (c :: cs)).filter (fun p => W < max p.1 p.2) := by
      intro p hp
      rw [Finset.mem_filter] at hp ⊢
      refine ⟨coPairs_cons c cs ▸ Finset.mem_union_right _ hp.1, ?_⟩
      exact lt_of_le_of_lt (le_max_left _ _) hp.2
    have hdisj : Disjoint ((cellPairs c).filter (fun p => W < max p.1 p.2))
        ((coPairs cs).filter (fun p => max W (maxL c) < max p.1 p.2)) := by
      rw [Finset.disjoint_left]
      intro p hp hp'
      rw [Finset.mem_filter, mem_cellPairs] at hp
      rw [Finset.mem_filter] at hp'
      have hb1 : p.1 ≤ maxL c := le_maxL _ hp.1.1
      have hb2 : p.2 ≤ maxL c := le_maxL _ hp.1.2.1
      have : max p.1 p.2 ≤ max W (maxL c) :=
        le_trans (max_le hb1 hb2) (le_max_right _ _)
      omega
    rw [scanPure]
    calc countCell W c + scanPure (max W (maxL c)) cs
        ≤ ((cellPairs c).filter (fun p => W < max p.1 p.2)).card
          + ((coPairs cs).filter (fun p => max W (maxL c) < max p.1 p.2)).card :=
          Nat.add_le_add h1 IH
      _ = (((cellPairs c).filter (fun p => W < max p.1 p.2))
          ∪ ((coPairs cs).filter (fun p => max W (maxL c) < max p.1 p.2))).card :=
          (Finset.card_union_of_disjoint hdisj).symm
      _ ≤ ((coPairs (c :: cs)).filter (fun p => W < max p.1 p.2)).card := by
          refine Finset.card_le_card ?_
          intro p hp
          rcases Finset.mem_union.mp hp with h | h
          · exact hsubA h
          · exact hsubB h

theorem scanPure_le_coPairs (css : List (List Nat)) (hnd : ∀ c ∈ css, c.Nodup) :
    scanPure 0 css ≤ (coPairs css).card :=
  le_trans (scanPure_le css 0 hnd)
    (Finset.card_le_card (Finset.filter_subset _ _))

/-!
## Building blocks of the compaction closed form
-/

theorem buildBlock_length (c : List Nat) : ∀ base, (buildBlock base c).length = c.length := by
  induction c with
  | nil => intro base; rfl
  | cons v t ih => intro base; rw [buildBlock]; simp [ih]

theorem buildRefs_length (cs : List (List Nat)) :
    ∀ base, (buildRefs base cs).length = cs.flatten.length := by
  induction cs with
  | nil => intro base; rfl
  | cons c t ih =>
    intro base
    rw [buildRefs]
    simp [buildBlock_length, ih]

theorem buildRefs_snoc (cs : List (List Nat)) (c : List Nat) :
    ∀ base, buildRefs base (cs ++ [c]) =
      buildRefs base cs ++ buildBlock (base + cs.flatten.length) c := by
  induction cs with
  | nil => intro base; rw [buildRefs]; simp [buildRefs]
  | cons d t ih =>
    intro base
    rw [List.cons_append, buildRefs, buildRefs, ih]
    simp [Nat.add_assoc]

theorem buildHeads_length (cs : List (List Nat)) :
    ∀ base, (buildHeads base cs).length = cs.length := by
  induction cs with
  | nil => intro base; rfl
  | cons c t ih => intro base; rw [buildHeads]; simp [ih]

theorem buildHeads_getD (cs : List (List Nat)) :
    ∀ base j, j < cs.length → (buildHeads base cs).getD j 0 =
      if cs.getD j [] = [] then 0 else base + ((cs.take j).flatten).length := by
  induction cs with
  | nil => intro base j h; simp at h
  | cons c t ih =>
    intro base j h
    cases j with
    | zero => rw [buildHeads]; simp
    | succ j =>
      rw [buildHeads]
      have hj : j < t.length := by simpa using h
      show (buildHeads (base + c.length) t).getD j 0 = _
      rw [ih (base + c.length) j hj]
      simp [Nat.add_assoc]

theorem chainRefs_nil_iff (refs : List UGridReference) {f i : Nat}
    (h : chainStop refs f i = 0) : chainRefs refs f i = [] ↔ i = 0 := by
  constructor
  · intro hnil
    cases f with
    | zero => simpa [chainStop] using h
    | succ n =>
      by_cases hi : i = 0
      · exact hi
      · rw [chainRefs_succ _ _ _ hi] at hnil
        simp at hnil
  · intro hi; rw [hi, chainRefs_zero]

theorem optChain_succ (refs : List UGridReference) (f i : Nat) (s : OptSt) (hi : i ≠ 0) :
    optChain refs (f + 1) i s =
      ((optChain refs f (refs.getD i default).Next
        ⟨(if (s.oldEnts.getD (refs.getD i default).Ref default).Copied = 0 then
            s.oldEnts.set (refs.getD i default).Ref
              { s.oldEnts.getD (refs.getD i default).Ref default with
                  Copied := s.newEnts.length }
          else s.oldEnts),
         (if (s.oldEnts.getD (refs.getD i default).Ref default).Copied = 0 then
            s.newEnts ++ [s.oldEnts.getD (refs.getD i default).Ref default]
          else s.newEnts),
         s.newRefs ++
           [⟨(if (refs.getD i default).Next = 0 then 0 else s.newRefs.length + 1),
             (if (s.oldEnts.getD (refs.getD i default).Ref default).Copied = 0 then
                s.newEnts.length
              else (s.oldEnts.getD (refs.getD i default).Ref default).Copied)⟩]⟩).1,
       some s.newRefs.length) := by
  rw [optChain]
  simp only [if_neg hi]

/-!
## The per-chain specification of the compaction walk
-/

theorem getD_set_self {α : Type} (l : List α) (i : Nat) (x d : α) (h : i < l.length) :
    (l.set i x).getD i d = x := by
  simp [List.getD, List.getElem?_set_self, h]

theorem getD_set_ne {α : Type} (l : List α) {i j : Nat} (x d : α) (h : i ≠ j) :
    (l.set i x).getD j d = l.getD j d := by
  simp [List.getD, List.getElem?_set_ne h]

theorem optChain_spec (g : UGrid) :
    ∀ (f i : Nat) (s : OptSt) (pre rest : List Nat),
      chainStop g.References f i = 0 →
      (∀ j ∈ chainRefs g.References f i, 1 ≤ (g.refAt j).Ref) →
      (∀ j ∈ chainRefs g.References f i, (g.refAt j).Ref < g.Entities.length) →
      g.chains.flatten =
        (pre ++ (chainRefs g.References f i).map (fun k => (g.refAt k).Ref)) ++ rest →
      (∀ v, v < g.Entities.length → (g.entAt v).Copied = 0) →
      s.oldEnts.length = g.Entities.length →
      (∀ v, v < g.Entities.length → s.oldEnts.getD v default =
        (if v ∈ pre then { g.entAt v with Copied := grank g.chains.flatten v }
         else g.entAt v)) →
      s.newEnts = default :: (firsts pre).map g.entAt →
      (optChain g.References f i s).1.oldEnts.length = g.Entities.length ∧
      (∀ v, v < g.Entities.length →
        (optChain g.References f i s).1.oldEnts.getD v default =
        (if v ∈ pre ++ (chainRefs g.References f i).map (fun k => (g.refAt k).Ref)
         then { g.entAt v with Copied := grank g.chains.flatten v }
         else g.entAt v)) ∧
      (optChain g.References f i s).1.newEnts =
        default :: (firsts (pre ++ (chainRefs g.References f i).map
          (fun k => (g.refAt k).Ref))).map g.entAt ∧
      (optChain g.References f i s).1.newRefs =
        s.newRefs ++ buildBlock s.newRefs.length
          (((chainRefs g.References f i).map (fun k => (g.refAt k).Ref)).map
            (grank g.chains.flatten)) ∧
      (optChain g.References f i s).2 =
        (if i = 0 then none else some s.newRefs.length) := by
  intro f
  induction f with
  | zero =>
    intro i s pre rest hterm _ _ _ _ hlen hold hnew
    have hi : i = 0 := by simpa [chainStop] using hterm
    subst hi
    have hcr : chainRefs g.References 0 0 = [] := rfl
    have ho : optChain g.References 0 0 s = (s, none) := rfl
    rw [hcr, ho]
    simp only [List.map_nil, List.append_nil]
    exact ⟨hlen, hold, hnew, by simp [buildBlock], by simp⟩
  | succ f ih =>
    intro i s pre rest hterm hpos hlt hstream horig hlen hold hnew
    by_cases hi : i = 0
    · subst hi
      have hcr : chainRefs g.References (f + 1) 0 = [] := chainRefs_zero _ _
      have ho : optChain g.References (f + 1) 0 s = (s, none) := by
        rw [optChain]; simp
      rw [hcr, ho]
      simp only [List.map_nil, List.append_nil]
      exact ⟨hlen, hold, hnew, by simp [buildBlock], by simp⟩
    · have hterm' : chainStop g.References f (g.References.getD i default).Next = 0 := by
        rwa [chainStop_succ _ _ _ hi] at hterm
      have hchain : chainRefs g.References (f + 1) i =
          i :: chainRefs g.References f (g.References.getD i default).Next :=
        chainRefs_succ _ _ _ hi
      have hiMem : i ∈ chainRefs g.References (f + 1) i := by
        rw [hchain]; exact List.mem_cons_self _ _
      have hv1 : 1 ≤ (g.refAt i).Ref := hpos i hiMem
      have hv2 : (g.refAt i).Ref < g.Entities.length := hlt i hiMem
      have hrefAt : (g.References.getD i default) = g.refAt i := rfl
      have hstream' :
          g.chains.flatten = ((pre ++ [(g.refAt i).Ref]) ++
            (chainRefs g.References f (g.References.getD i default).Next).map
              (fun k => (g.refAt k).Ref)) ++ rest := by
        rw [hstream, hchain]
        simp
      have htail : (chainRefs g.References f (g.References.getD i default).Next = []) ↔
          (g.References.getD i default).Next = 0 :=
        chainRefs_nil_iff _ hterm'
      by_cases hvpre : (g.refAt i).Ref ∈ pre
      · -- the head entity was already copied earlier in the walk
        have he : s.oldEnts.getD (g.refAt i).Ref default =
            { g.entAt (g.refAt i).Ref with
                Copied := grank g.chains.flatten (g.refAt i).Ref } := by
          rw [hold _ hv2, if_pos hvpre]
        have hcop : (s.oldEnts.getD (g.References.getD i default).Ref default).Copied ≠ 0 := by
          rw [hrefAt, he]
          show grank g.chains.flatten (g.refAt i).Ref ≠ 0
          have := grank_pos g.chains.flatten (g.refAt i).Ref
          omega
        rw [optChain_succ _ _ _ _ hi]
        rw [if_neg hcop, if_neg hcop, if_neg hcop]
        have hfm : firsts (pre ++ [(g.refAt i).Ref]) = firsts pre :=
          firsts_append_mem pre hvpre
        have hold' : ∀ v, v < g.Entities.length → s.oldEnts.getD v default =
            (if v ∈ pre ++ [(g.refAt i).Ref]
             then { g.entAt v with Copied := grank g.chains.flatten v }
             else g.entAt v) := by
          intro v hvlt
          rw [hold v hvlt]
          by_cases hv : v ∈ pre
          · rw [if_pos hv, if_pos (List.mem_append_left _ hv)]
          · rw [if_neg hv, if_neg (fun hmem => ?_)]
            rcases List.mem_append.mp hmem with h | h
            · exact hv h
            · rw [List.mem_singleton] at h
              exact hv (h ▸ hvpre)
        have hnew' : s.newEnts = default :: (firsts (pre ++ [(g.refAt i).Ref])).map g.entAt := by
          rw [hfm, hnew]
        have hcopval : (s.oldEnts.getD (g.References.getD i default).Ref default).Copied =
            grank g.chains.flatten (g.refAt i).Ref := by
          rw [hrefAt, he]
        obtain ⟨c1, c2, c3, c4, c5⟩ := ih (g.References.getD i default).Next
          ⟨s.oldEnts, s.newEnts,
            s.newRefs ++
              [⟨(if (g.References.getD i default).Next = 0 then 0 else s.newRefs.length + 1),
                (s.oldEnts.getD (g.References.getD i default).Ref default).Copied⟩]⟩
          (pre ++ [(g.refAt i).Ref]) rest hterm'
          (fun j hj => hpos j (by rw [hchain]; exact List.mem_cons_of_mem _ hj))
          (fun j hj => hlt j (by rw [hchain]; exact List.mem_cons_of_mem _ hj))
          hstream' horig hlen hold' hnew'
        refine ⟨c1, ?_, ?_, ?_, ?_⟩
        · intro v hvlt
          rw [c2 v hvlt, hchain]
          simp [List.append_assoc]
        · rw [c3, hchain]
          simp [List.append_assoc]
        · rw [c4, hchain]
          rw [List.map_cons, List.map_cons, buildBlock]
          simp only [List.length_append, List.length_singleton, List.append_assoc,
            List.singleton_append]
          rw [hcopval]
          by_cases hnil : (g.References.getD i default).Next = 0
          · rw [if_pos hnil, if_pos (by
              rw [List.map_eq_nil_iff, List.map_eq_nil_iff]
              exact htail.mpr hnil)]
          · rw [if_neg hnil, if_neg (by
              intro hmn
              rw [List.map_eq_nil_iff, List.map_eq_nil_iff] at hmn
              exact hnil (htail.mp hmn))]
        · rw [if_neg hi]
      · -- the head entity is discovered here: it is copied
        have he : s.oldEnts.getD (g.refAt i).Ref default = g.entAt (g.refAt i).Ref := by
          rw [hold _ hv2, if_neg hvpre]
        have hcop : (s.oldEnts.getD (g.References.getD i default).Ref default).Copied = 0 := by
          rw [hrefAt, he]
          exact horig _ hv2
        have hglen : s.newEnts.length = (firsts pre).length + 1 := by
          rw [hnew]; simp
        have hgr : grank g.chains.flatten (g.refAt i).Ref = (firsts pre).length + 1 := by
          have h1 : g.chains.flatten = (pre ++ [(g.refAt i).Ref]) ++
              ((chainRefs g.References f (g.References.getD i default).Next).map
                (fun k => (g.refAt k).Ref) ++ rest) := by
            rw [hstream']; simp [List.append_assoc]
          rw [h1, grank_stable _ _ (List.mem_append_right _ (List.mem_singleton_self _)),
            grank_snoc_new pre hvpre]
        rw [optChain_succ _ _ _ _ hi]
        rw [if_pos hcop, if_pos hcop, if_pos hcop]
        have hvlen : (g.refAt i).Ref < s.oldEnts.length := by rw [hlen]; exact hv2
        have hold' : ∀ v, v < g.Entities.length →
            (s.oldEnts.set (g.References.getD i default).Ref
              { s.oldEnts.getD (g.References.getD i default).Ref default with
                  Copied := s.newEnts.length }).getD v default =
            (if v ∈ pre ++ [(g.refAt i).Ref]
             then { g.entAt v with Copied := grank g.chains.flatten v }
             else g.entAt v) := by
          intro v hvlt
          by_cases hv : v = (g.refAt i).Ref
          · subst hv
            rw [hrefAt]
            rw [getD_set_self s.oldEnts _ _ _ hvlen]
            rw [if_pos (List.mem_append_right _ (List.mem_singleton_self _))]
            rw [he, hgr, hglen]
          · have hne : (g.refAt i).Ref ≠ v := fun h => hv h.symm
            rw [hrefAt]
            rw [getD_set_ne s.oldEnts _ _ hne]
            rw [hold v hvlt]
            by_cases hvp : v ∈ pre
            · rw [if_pos hvp, if_pos (List.mem_append_left _ hvp)]
            · rw [if_neg hvp, if_neg (fun hmem => ?_)]
              rcases List.mem_append.mp hmem with h | h
              · exact hvp h
              · rw [List.mem_singleton] at h
                exact hv h
        have hnew' : s.newEnts ++ [s.oldEnts.getD (g.References.getD i default).Ref default] =
            default :: (firsts (pre ++ [(g.refAt i).Ref])).map g.entAt := by
          rw [firsts_append_new pre hvpre, hnew, hrefAt, he]
          simp
        have hlen' : (s.oldEnts.set (g.References.getD i default).Ref
            { s.oldEnts.getD (g.References.getD i default).Ref default with
                Copied := s.newEnts.length }).length = g.Entities.length := by
          rw [List.length_set, hlen]
        obtain ⟨c1, c2, c3, c4, c5⟩ := ih (g.References.getD i default).Next
          ⟨_, _, s.newRefs ++
              [⟨(if (g.References.getD i default).Next = 0 then 0 else s.newRefs.length + 1),
                s.newEnts.length⟩]⟩
          (pre ++ [(g.refAt i).Ref]) rest hterm'
          (fun j hj => hpos j (by rw [hchain]; exact List.mem_cons_of_mem _ hj))
          (fun j hj => hlt j (by rw [hchain]; exact List.mem_cons_of_mem _ hj))
          hstream' horig hlen' hold' hnew'
        refine ⟨c1, ?_, ?_, ?_, ?_⟩
        · intro v hvlt
          rw [c2 v hvlt, hchain]
          simp [List.append_assoc]
        · rw [c3, hchain]
          simp [List.append_assoc]
        · rw [c4, hchain]
          rw [List.map_cons, List.map_cons, buildBlock]
          simp only [List.length_append, List.length_singleton, List.append_assoc,
            List.singleton_append]
          rw [hgr, hglen]
          by_cases hnil : (g.References.getD i default).Next = 0
          · rw [if_pos hnil, if_pos (by
              rw [List.map_eq_nil_iff, List.map_eq_nil_iff]
              exact htail.mpr hnil)]
          · rw [if_neg hnil, if_neg (by
              intro hmn
              rw [List.map_eq_nil_iff, List.map_eq_nil_iff] at hmn
              exact hnil (htail.mp hmn))]
        · rw [if_neg hi]

/-!
## Bridging the chain lists to the cell table
-/

theorem chains_length (g : UGrid) : g.chains.length = g.Cells.length := by
  simp [UGrid.chains]

theorem chains_getElem (g : UGrid) {k : Nat} (hk : k < g.chains.length) :
    g.chains[k] = g.chainEnts k := by
  simp [UGrid.chains] at hk ⊢

theorem chains_getD (g : UGrid) {k : Nat} (hk : k < g.Cells.length) :
    g.chains.getD k [] = g.chainEnts k := by
  rw [List.getD_eq_getElem _ _ (by rw [chains_length]; exact hk),
    chains_getElem g (by rw [chains_length]; exact hk)]

theorem chains_take_succ (g : UGrid) {k : Nat} (hk : k < g.Cells.length) :
    g.chains.take (k + 1) = g.chains.take k ++ [g.chainEnts k] := by
  rw [← List.take_concat_get' _ _ (by rw [chains_length]; exact hk),
    chains_getElem g (by rw [chains_length]; exact hk)]

theorem chains_take_flatten (g : UGrid) {k : Nat} (hk : k < g.Cells.length) :
    (g.chains.take (k + 1)).flatten = (g.chains.take k).flatten ++ g.chainEnts k := by
  rw [chains_take_succ g hk, List.flatten_append]
  simp

theorem flatten_take_drop (css : List (List Nat)) (k : Nat) :
    css.flatten = (css.take k).flatten ++ (css.drop k).flatten := by
  rw [← List.flatten_append, List.take_append_drop]

theorem optChain_zero_idx (refs : List UGridReference) (s : OptSt) :
    ∀ f, optChain refs f 0 s = (s, none) := by
  intro f; cases f <;> simp [optChain]

theorem chainEnts_nil_iff (g : UGrid) {ci : Nat}
    (hterm : chainStop g.References g.References.length (g.headAt ci) = 0) :
    g.chainEnts ci = [] ↔ g.headAt ci = 0 := by
  rw [UGrid.chainEnts, List.map_eq_nil_iff, UGrid.chainIdxs,
    chainRefs_nil_iff _ hterm]

theorem mapped_take_flatten_length (css : List (List Nat)) (f : Nat → Nat) (k : Nat) :
    (((css.map (List.map f)).take k).flatten).length = ((css.take k).flatten).length := by
  rw [← List.map_take, ← List.map_flatten, List.length_map]

theorem map_getD_nil (css : List (List Nat)) (f : Nat → Nat) (j : Nat) :
    (css.map (List.map f)).getD j [] = [] ↔ css.getD j [] = [] := by
  by_cases hj : j < css.length
  · rw [List.getD_eq_getElem _ _ (by simpa using hj), List.getD_eq_getElem _ _ hj]
    simp
  · rw [List.getD_eq_default _ _ (by simpa using Nat.le_of_not_lt hj),
      List.getD_eq_default _ _ (Nat.le_of_not_lt hj)]

/-!
## The whole compaction pass against its closed form
-/

theorem optimize_fold_inv (g : UGrid) (hg : WF g) :
    ∀ k, k ≤ g.Cells.length →
      ((List.range k).foldl g.optStep g.optInit).1.oldEnts.length = g.Entities.length ∧
      (∀ v, v < g.Entities.length →
        ((List.range k).foldl g.optStep g.optInit).1.oldEnts.getD v default =
          (if v ∈ (g.chains.take k).flatten
           then { g.entAt v with Copied := grank g.chains.flatten v }
           else g.entAt v)) ∧
      ((List.range k).foldl g.optStep g.optInit).1.newEnts =
        default :: (firsts (g.chains.take k).flatten).map g.entAt ∧
      ((List.range k).foldl g.optStep g.optInit).1.newRefs =
        default :: buildRefs 1
          ((g.chains.take k).map (List.map (grank g.chains.flatten))) ∧
      ((List.range k).foldl g.optStep g.optInit).2.length = g.Cells.length ∧
      (∀ j, j < g.Cells.length →
        ((List.range k).foldl g.optStep g.optInit).2.getD j 0 =
          (if j < k then
            (if g.chainEnts j = [] then 0 else 1 + ((g.chains.take j).flatten).length)
           else g.headAt j)) := by
  intro k
  induction k with
  | zero =>
    intro _
    refine ⟨rfl, ?_, ?_, ?_, rfl, ?_⟩
    · intro v hv
      simp [UGrid.optInit, UGrid.entAt]
    · simp [UGrid.optInit, firsts, firstsAux]
    · simp [UGrid.optInit, buildRefs]
    · intro j hj
      simp [UGrid.optInit, UGrid.headAt]
  | succ k ih =>
    intro hk1
    have hk' : k < g.Cells.length := Nat.lt_of_succ_le hk1
    obtain ⟨ih1, ih2, ih3, ih4, ih5, ih6⟩ := ih (Nat.le_of_lt hk')
    rw [List.range_succ, List.foldl_append, List.foldl_cons, List.foldl_nil]
    set A := (List.range k).foldl g.optStep g.optInit with hA
    have hA2k : A.2.getD k 0 = g.headAt k := by
      rw [ih6 k hk']
      simp
    have hstream : g.chains.flatten =
        ((g.chains.take k).flatten ++
          (chainRefs g.References g.References.length (g.headAt k)).map
            (fun j => (g.refAt j).Ref)) ++ (g.chains.drop (k + 1)).flatten := by
      have h1 : (chainRefs g.References g.References.length (g.headAt k)).map
          (fun j => (g.refAt j).Ref) = g.chainEnts k := rfl
      rw [h1, ← chains_take_flatten g hk', ← flatten_take_drop]
    obtain ⟨c1, c2, c3, c4, c5⟩ := optChain_spec g g.References.length (g.headAt k)
      A.1 (g.chains.take k).flatten (g.chains.drop (k + 1)).flatten
      (hg.term k hk') (hg.ref_pos k hk') (hg.ref_lt k hk') hstream hg.copied0
      ih1 ih2 ih3
    have hents : (chainRefs g.References g.References.length (g.headAt k)).map
        (fun j => (g.refAt j).Ref) = g.chainEnts k := rfl
    rw [hents] at c2 c3 c4
    have hmtf : (((g.chains.take k).map (List.map (grank g.chains.flatten))).flatten).length
        = ((g.chains.take k).flatten).length := by
      rw [← List.map_flatten, List.length_map]
    have hlen4 : A.1.newRefs.length = 1 + ((g.chains.take k).flatten).length := by
      rw [ih4, List.length_cons, buildRefs_length, hmtf]
      omega
    rcases hoc : optChain g.References g.References.length (g.headAt k) A.1 with ⟨S, o⟩
    rw [hoc] at c1 c2 c3 c4 c5
    dsimp only at c1 c2 c3 c4 c5
    by_cases hh : g.headAt k = 0
    · -- empty chain: no state change, head untouched
      have hnil : g.chainEnts k = [] := (chainEnts_nil_iff g (hg.term k hk')).mpr hh
      have ho : o = none := by simpa [hh] using c5
      subst ho
      have hstep : g.optStep A k = (S, A.2) := by
        rw [UGrid.optStep, hA2k, hoc]
      rw [hstep]
      dsimp only
      have htake : (g.chains.take (k + 1)).flatten = (g.chains.take k).flatten := by
        rw [chains_take_flatten g hk', hnil, List.append_nil]
      have htakemap : (g.chains.take (k + 1)).map (List.map (grank g.chains.flatten)) =
          (g.chains.take k).map (List.map (grank g.chains.flatten)) ++ [[]] := by
        rw [chains_take_succ g hk', List.map_append, hnil]
        rfl
      refine ⟨c1, ?_, ?_, ?_, ih5, ?_⟩
      · intro v hv
        rw [c2 v hv, htake, hnil, List.append_nil]
      · rw [c3, htake, hnil, List.append_nil]
      · rw [c4, ih4, hnil, htakemap, buildRefs_snoc]
        simp [buildBlock]
      · intro j hj
        rw [ih6 j hj]
        by_cases hjk : j < k
        · rw [if_pos hjk, if_pos (Nat.lt_succ_of_lt hjk)]
        · by_cases hjk1 : j < k + 1
          · have hjeq : j = k := by omega
            subst hjeq
            rw [if_neg hjk, if_pos hjk1, if_pos hnil, hh]
          · rw [if_neg hjk, if_neg hjk1]
    · -- non-empty chain: the head is rewritten to the block base
      have hnnil : g.chainEnts k ≠ [] := fun hcon =>
        hh ((chainEnts_nil_iff g (hg.term k hk')).mp hcon)
      have ho : o = some A.1.newRefs.length := by simpa [hh] using c5
      subst ho
      have hstep : g.optStep A k = (S, A.2.set k A.1.newRefs.length) := by
        rw [UGrid.optStep, hA2k, hoc]
      rw [hstep]
      dsimp only
      have htake : (g.chains.take (k + 1)).flatten =
          (g.chains.take k).flatten ++ g.chainEnts k := chains_take_flatten g hk'
      have htakemap : (g.chains.take (k + 1)).map (List.map (grank g.chains.flatten)) =
          (g.chains.take k).map (List.map (grank g.chains.flatten)) ++
            [(g.chainEnts k).map (grank g.chains.flatten)] := by
        rw [chains_take_succ g hk', List.map_append]
        rfl
      refine ⟨c1, ?_, ?_, ?_, ?_, ?_⟩
      · intro v hv
        rw [c2 v hv, htake]
      · rw [c3, htake]
      · rw [c4, hlen4, ih4, htakemap, buildRefs_snoc, hmtf]
        rw [List.cons_append]
      · rw [List.length_set]
        exact ih5
      · intro j hj
        by_cases hjk : j = k
        · subst hjk
          rw [getD_set_self _ _ _ _ (by rw [ih5]; exact hk')]
          rw [if_pos (Nat.lt_succ_self _), if_neg hnnil, hlen4]
        · rw [getD_set_ne _ _ _ (fun h => hjk h.symm)]
          rw [ih6 j hj]
          by_cases hjk' : j < k
          · rw [if_pos hjk', if_pos (Nat.lt_succ_of_lt hjk')]
          · rw [if_neg hjk', if_neg (by omega)]

theorem optimize_eq_spec (g : UGrid) (hg : WF g) : g.Optimize = optimizeSpec g := by
  obtain ⟨i1, i2, i3, i4, i5, i6⟩ := optimize_fold_inv g hg g.Cells.length (le_refl _)
  have hfold : g.scannedCells.foldl g.optStep g.optInit =
      (List.range g.Cells.length).foldl g.optStep g.optInit := by
    rw [UGrid.scannedCells, List.range_succ, List.foldl_append, List.foldl_cons,
      List.foldl_nil]
    set A := (List.range g.Cells.length).foldl g.optStep g.optInit with hA
    have h0 : A.2.getD g.Cells.length 0 = 0 :=
      List.getD_eq_default _ _ (by rw [i5])
    rw [UGrid.optStep, h0, optChain_zero_idx]
  have htakeL : g.chains.take g.Cells.length = g.chains := by
    rw [← chains_length, List.take_length]
  have hcells : ((List.range g.Cells.length).foldl g.optStep g.optInit).2 =
      buildHeads 1 (renumber g.chains) := by
    refine List.ext_getElem ?_ ?_
    · rw [i5, buildHeads_length, renumber, List.length_map, chains_length]
    · intro j h1 h2
      have hj : j < g.Cells.length := by rw [← i5]; exact h1
      have e1 : ((List.range g.Cells.length).foldl g.optStep g.optInit).2[j] =
          ((List.range g.Cells.length).foldl g.optStep g.optInit).2.getD j 0 :=
        (List.getD_eq_getElem _ _ h1).symm
      have e2 : (buildHeads 1 (renumber g.chains))[j] =
          (buildHeads 1 (renumber g.chains)).getD j 0 :=
        (List.getD_eq_getElem _ _ h2).symm
      rw [e1, e2, i6 j hj, if_pos hj,
        buildHeads_getD _ _ _ (by rw [renumber, List.length_map, chains_length]; exact hj)]
      rw [renumber]
      have hcond : ((g.chains.map (List.map (grank g.chains.flatten))).getD j [] = [])
          ↔ g.chainEnts j = [] := by
        rw [map_getD_nil, chains_getD g hj]
      have hlenj :
          ((((g.chains.map (List.map (grank g.chains.flatten))).take j)).flatten).length
          = ((g.chains.take j).flatten).length := mapped_take_flatten_length _ _ _
      by_cases hnil : g.chainEnts j = []
      · rw [if_pos hnil, if_pos (hcond.mpr hnil)]
      · rw [if_neg hnil, if_neg (fun hc => hnil (hcond.mp hc)), hlenj]
  rw [UGrid.Optimize]
  rw [hfold, i3, i4, hcells, htakeL, optimizeSpec, renumber]

/-!
## Walking the rebuilt arena
-/

theorem buildRefs_append (cs1 cs2 : List (List Nat)) :
    ∀ base, buildRefs base (cs1 ++ cs2) =
      buildRefs base cs1 ++ buildRefs (base + cs1.flatten.length) cs2 := by
  induction cs1 with
  | nil => intro base; simp [buildRefs]
  | cons c t ih =>
    intro base
    rw [List.cons_append, buildRefs, buildRefs, ih]
    simp [Nat.add_assoc]

theorem blockWalk :
    ∀ (c : List Nat) (R S refs : List UGridReference) (f : Nat),
      refs = R ++ (buildBlock R.length c ++ S) →
      1 ≤ R.length → c ≠ [] → c.length ≤ f →
      chainStop refs f R.length = 0 ∧
      ((chainRefs refs f R.length).map (fun i => (refs.getD i default).Ref)) = c ∧
      (∀ i ∈ chainRefs refs f R.length, R.length ≤ i ∧ i < R.length + c.length) := by
  intro c
  induction c with
  | nil => intro R S refs f _ _ hne _; exact absurd rfl hne
  | cons v t ih =>
    intro R S refs f hrefs hR _ hf
    rw [List.length_cons] at hf
    obtain ⟨f', rfl⟩ : ∃ f', f = f' + 1 := ⟨f - 1, by omega⟩
    have hRne : R.length ≠ 0 := by omega
    have hgd : refs.getD R.length default =
        ⟨if t = [] then 0 else R.length + 1, v⟩ := by
      rw [hrefs, List.getD_append_right _ _ _ _ (le_refl _), Nat.sub_self]
      rw [buildBlock]
      rfl
    by_cases ht : t = []
    · subst ht
      have hnext : (refs.getD R.length default).Next = 0 := by rw [hgd]; simp
      refine ⟨?_, ?_, ?_⟩
      · rw [chainStop_succ _ _ _ hRne, hnext, chainStop_zero]
      · rw [chainRefs_succ _ _ _ hRne, hnext, chainRefs_zero, List.map_cons,
          List.map_nil, hgd]
      · intro i hi
        rw [chainRefs_succ _ _ _ hRne, hnext, chainRefs_zero] at hi
        rcases List.mem_singleton.mp hi with rfl
        simp
    · have hnext : (refs.getD R.length default).Next = R.length + 1 := by
        rw [hgd]; simp [ht]
      have hrefs' : refs = (R ++ [(⟨R.length + 1, v⟩ : UGridReference)]) ++
          (buildBlock (R ++ [(⟨R.length + 1, v⟩ : UGridReference)]).length t ++ S) := by
        rw [hrefs, buildBlock, if_neg ht]
        simp [List.append_assoc]
      obtain ⟨w1, w2, w3⟩ := ih (R ++ [(⟨R.length + 1, v⟩ : UGridReference)]) S refs f'
        hrefs' (by simp) ht (by omega)
      have hRlen : (R ++ [(⟨R.length + 1, v⟩ : UGridReference)]).length = R.length + 1 := by
        simp
      rw [hRlen] at w1 w2 w3
      refine ⟨?_, ?_, ?_⟩
      · rw [chainStop_succ _ _ _ hRne, hnext]
        exact w1
      · rw [chainRefs_succ _ _ _ hRne, hnext, List.map_cons, w2, hgd]
      · intro i hi
        rw [chainRefs_succ _ _ _ hRne, hnext] at hi
        rcases List.mem_cons.mp hi with rfl | hi
        · simp
        · have := w3 i hi
          simp
          omega

theorem flatten_mem_lt (g : UGrid) (hg : WF g) :
    ∀ v ∈ g.chains.flatten, 1 ≤ v ∧ v < g.Entities.length := by
  intro v hv
  rw [List.mem_flatten] at hv
  obtain ⟨c, hc, hvc⟩ := hv
  rw [UGrid.chains] at hc
  rcases List.mem_map.mp hc with ⟨j, hjr, rfl⟩
  have hj : j < g.Cells.length := by simpa using List.mem_range.mp hjr
  rw [UGrid.chainEnts] at hvc
  rcases List.mem_map.mp hvc with ⟨i, hi, rfl⟩
  exact ⟨hg.ref_pos j hj i hi, hg.ref_lt j hj i hi⟩

/-!
## The compacted grid is well-formed and its chains are the renumbered chains
-/

theorem spec_cell (g : UGrid) {j : Nat}
    (hj' : j < (renumber g.chains).length) :
    chainStop (optimizeSpec g).References (optimizeSpec g).References.length
      ((optimizeSpec g).headAt j) = 0 ∧
    (optimizeSpec g).chainEnts j = (renumber g.chains).getD j [] ∧
    (∀ i ∈ (optimizeSpec g).chainIdxs j,
      1 ≤ i ∧ i < (optimizeSpec g).References.length) := by
  have hhead : (optimizeSpec g).headAt j =
      (if (renumber g.chains).getD j [] = [] then 0
       else 1 + (((renumber g.chains).take j).flatten).length) := by
    show (buildHeads 1 (renumber g.chains)).getD j 0 = _
    rw [buildHeads_getD _ _ _ hj']
  by_cases hnil : (renumber g.chains).getD j [] = []
  · rw [hnil]
    have h0 : (optimizeSpec g).headAt j = 0 := by rw [hhead, if_pos hnil]
    rw [UGrid.chainEnts, UGrid.chainIdxs, h0, chainRefs_zero]
    exact ⟨chainStop_zero _ _, rfl, by intro i hi; simp at hi⟩
  · have hsplit : renumber g.chains = (renumber g.chains).take j ++
        ((renumber g.chains).getD j [] :: (renumber g.chains).drop (j + 1)) := by
      rw [List.getD_eq_getElem _ _ hj']
      conv_lhs => rw [← List.take_append_drop j (renumber g.chains)]
      rw [List.drop_eq_getElem_cons hj']
    have hrefs : (optimizeSpec g).References =
        (default :: buildRefs 1 ((renumber g.chains).take j)) ++
          (buildBlock (default :: buildRefs 1 ((renumber g.chains).take j)).length
            ((renumber g.chains).getD j []) ++
           buildRefs ((default :: buildRefs 1 ((renumber g.chains).take j)).length +
              ((renumber g.chains).getD j []).length)
            ((renumber g.chains).drop (j + 1))) := by
      show default :: buildRefs 1 (renumber g.chains) = _
      conv_lhs => rw [hsplit]
      rw [buildRefs_append, buildRefs]
      rw [List.length_cons, buildRefs_length]
      simp [List.append_assoc, Nat.add_comm]
    have hRlen : (default :: buildRefs 1 ((renumber g.chains).take j)).length =
        1 + (((renumber g.chains).take j).flatten).length := by
      rw [List.length_cons, buildRefs_length]
      omega
    have hflatlen : ((renumber g.chains).flatten).length =
        (((renumber g.chains).take j).flatten).length +
        ((renumber g.chains).getD j []).length +
        (((renumber g.chains).drop (j + 1)).flatten).length := by
      conv_lhs => rw [hsplit]
      rw [List.flatten_append, List.flatten_cons]
      simp [Nat.add_assoc]
    have hreflen : (optimizeSpec g).References.length =
        1 + ((renumber g.chains).flatten).length := by
      show (default :: buildRefs 1 (renumber g.chains)).length = _
      rw [List.length_cons, buildRefs_length]
      omega
    have hfuel : ((renumber g.chains).getD j []).length ≤
        (optimizeSpec g).References.length := by
      rw [hreflen, hflatlen]
      omega
    obtain ⟨w1, w2, w3⟩ := blockWalk ((renumber g.chains).getD j [])
      (default :: buildRefs 1 ((renumber g.chains).take j))
      (buildRefs ((default :: buildRefs 1 ((renumber g.chains).take j)).length +
          ((renumber g.chains).getD j []).length)
        ((renumber g.chains).drop (j + 1)))
      (optimizeSpec g).References (optimizeSpec g).References.length
      hrefs (by simp) hnil hfuel
    have hheadR : (optimizeSpec g).headAt j =
        (default :: buildRefs 1 ((renumber g.chains).take j)).length := by
      rw [hhead, if_neg hnil, hRlen]
    refine ⟨?_, ?_, ?_⟩
    · rw [hheadR]
      exact w1
    · rw [UGrid.chainEnts, UGrid.chainIdxs, hheadR]
      exact w2
    · intro i hi
      rw [UGrid.chainIdxs, hheadR] at hi
      obtain ⟨hb1, hb2⟩ := w3 i hi
      constructor
      · omega
      · rw [hreflen, hflatlen]
        rw [hRlen] at hb2
        omega

theorem chains_optimizeSpec (g : UGrid) :
    (optimizeSpec g).chains = renumber g.chains := by
  have hlen : (optimizeSpec g).Cells.length = (renumber g.chains).length := by
    show (buildHeads 1 (renumber g.chains)).length = _
    rw [buildHeads_length]
  refine List.ext_getElem (by rw [chains_length, hlen]) ?_
  intro j h1 h2
  rw [chains_getElem _ h1]
  have hj' : j < (renumber g.chains).length := h2
  rw [(spec_cell g hj').2.1, List.getD_eq_getElem _ _ hj']

theorem mem_chainEnts_flatten (g : UGrid) {j : Nat} (hj : j < g.Cells.length) :
    ∀ x ∈ g.chainEnts j, x ∈ g.chains.flatten := by
  intro x hx
  refine List.mem_flatten.mpr ⟨g.chainEnts j, ?_, hx⟩
  rw [UGrid.chains]
  exact List.mem_map.mpr ⟨j, List.mem_range.mpr hj, rfl⟩

theorem renumber_getD (g : UGrid) {j : Nat} (hj : j < g.Cells.length) :
    (renumber g.chains).getD j [] = (g.chainEnts j).map (grank g.chains.flatten) := by
  rw [renumber,
    List.getD_eq_getElem _ _ (by rw [List.length_map, chains_length]; exact hj),
    List.getElem_map, chains_getElem g (by rw [chains_length]; exact hj)]

theorem renumber_length_eq (g : UGrid) : (renumber g.chains).length = g.Cells.length := by
  rw [renumber, List.length_map, chains_length]

theorem wf_optimizeSpec (g : UGrid) (hg : WF g) : WF (optimizeSpec g) := by
  have hLc : (optimizeSpec g).Cells.length = (renumber g.chains).length := by
    show (buildHeads 1 (renumber g.chains)).length = _
    rw [buildHeads_length]
  have hents_len : (optimizeSpec g).Entities.length =
      (firsts g.chains.flatten).length + 1 := by
    show (default :: (firsts g.chains.flatten).map g.entAt).length = _
    simp
  have hval : ∀ v ∈ (renumber g.chains).flatten,
      1 ≤ v ∧ v < (optimizeSpec g).Entities.length := by
    intro v hv
    rw [renumber_flatten] at hv
    rcases List.mem_map.mp hv with ⟨u, hu, rfl⟩
    refine ⟨grank_pos _ _, ?_⟩
    rw [hents_len]
    have := grank_le_length hu
    omega
  have hmemEnts : ∀ j, j < (optimizeSpec g).Cells.length →
      ∀ i ∈ (optimizeSpec g).chainIdxs j,
        ((optimizeSpec g).refAt i).Ref ∈ (renumber g.chains).flatten := by
    intro j hj i hi
    have hj' : j < (renumber g.chains).length := by rw [← hLc]; exact hj
    have hmem : ((optimizeSpec g).refAt i).Ref ∈ (optimizeSpec g).chainEnts j :=
      List.mem_map.mpr ⟨i, hi, rfl⟩
    rw [(spec_cell g hj').2.1] at hmem
    refine List.mem_flatten.mpr ⟨(renumber g.chains).getD j [], ?_, hmem⟩
    rw [List.getD_eq_getElem _ _ hj']
    exact List.getElem_mem hj'
  constructor
  · show 1 ≤ (default :: buildRefs 1 (renumber g.chains)).length
    simp
  · show 1 ≤ (default :: (firsts g.chains.flatten).map g.entAt).length
    simp
  · intro ci hci
    exact (spec_cell g (by rw [← hLc]; exact hci)).1
  · intro ci hci i hi
    exact ((spec_cell g (by rw [← hLc]; exact hci)).2.2 i hi).2
  · intro ci hci i hi
    exact (hval _ (hmemEnts ci hci i hi)).1
  · intro ci hci i hi
    exact (hval _ (hmemEnts ci hci i hi)).2
  · intro v hv
    match v with
    | 0 => rfl
    | w + 1 =>
      have hw : w < ((firsts g.chains.flatten).map g.entAt).length := by
        rw [hents_len] at hv
        simpa using Nat.lt_of_succ_lt_succ hv
      show ((default :: (firsts g.chains.flatten).map g.entAt).getD (w + 1) default).Copied = 0
      rw [List.getD_cons_succ, List.getD_eq_getElem _ _ hw, List.getElem_map]
      have hw2 : w < (firsts g.chains.flatten).length := by simpa using hw
      have hmem : (firsts g.chains.flatten).get ⟨w, hw2⟩ ∈ g.chains.flatten := by
        refine (mem_firsts _ _).mp ?_
        exact List.get_mem _ _ _
      exact hg.copied0 _ (flatten_mem_lt g hg _ hmem).2
  · intro ci hci
    have hj' : ci < (renumber g.chains).length := by rw [← hLc]; exact hci
    rw [(spec_cell g hj').2.1, renumber_getD g (by rw [← renumber_length_eq g]; exact hj')]
    refine List.Nodup.map_on ?_ (hg.nodup ci (by rw [← renumber_length_eq g]; exact hj'))
    intro x hx y hy hxy
    have hcells : ci < g.Cells.length := by rw [← renumber_length_eq g]; exact hj'
    exact grank_inj (mem_chainEnts_flatten g hcells x hx)
      (mem_chainEnts_flatten g hcells y hy) hxy

/-!
## Idempotence of compaction
-/

theorem optimizeSpec_idem (g : UGrid) :
    optimizeSpec (optimizeSpec g) = optimizeSpec g := by
  have hch : (optimizeSpec g).chains = renumber g.chains := chains_optimizeSpec g
  have hcanon : Canonical (optimizeSpec g).chains.flatten := by
    rw [hch]; exact canonical_renumber _
  have hren : renumber (optimizeSpec g).chains = (optimizeSpec g).chains :=
    renumber_of_canonical hcanon
  have hfs : firsts (optimizeSpec g).chains.flatten =
      (firsts g.chains.flatten).map (grank g.chains.flatten) := by
    rw [hch, renumber_flatten]
    exact firsts_map _ _ (fun x hx y hy h => grank_inj hx hy h)
  have hentsmap : (firsts (optimizeSpec g).chains.flatten).map (optimizeSpec g).entAt =
      (firsts g.chains.flatten).map g.entAt := by
    rw [hfs, List.map_map]
    refine List.map_congr_left ?_
    intro u hu
    have hlt : (firsts g.chains.flatten).indexOf u < (firsts g.chains.flatten).length :=
      List.indexOf_lt_length.mpr hu
    show ((default :: (firsts g.chains.flatten).map g.entAt).getD
      ((firsts g.chains.flatten).indexOf u + 1) default) = g.entAt u
    rw [List.getD_cons_succ, List.getD_eq_getElem _ _ (by simpa using hlt),
      List.getElem_map, List.getElem_indexOf hlt]
  show { optimizeSpec g with
      Entities := default ::
        (firsts (optimizeSpec g).chains.flatten).map (optimizeSpec g).entAt
      References := default :: buildRefs 1 (renumber (optimizeSpec g).chains)
      Cells := buildHeads 1 (renumber (optimizeSpec g).chains) } = optimizeSpec g
  rw [hentsmap, hren, hch]
  rfl

theorem optimize_idem (g : UGrid) (hg : WF g) : g.Optimize.Optimize = g.Optimize := by
  rw [optimize_eq_spec g hg, optimize_eq_spec (optimizeSpec g) (wf_optimizeSpec g hg),
    optimizeSpec_idem g]

/-!
## The fuelled scan equals the pure scan on the chain contents
-/

theorem outerScan_zero (refs : List UGridReference) (W : Nat) :
    ∀ f, outerScan refs W f 0 = (0, 0) := by
  intro f; cases f <;> simp [outerScan]

theorem innerScan_eq (refs : List UGridReference) (W : Nat) :
    ∀ f j, chainStop refs f j = 0 →
      innerScan refs W f j =
        ((chainRefs refs f j).map (fun i => (refs.getD i default).Ref)).countP
          (fun r2 => decide (W ≤ r2)) := by
  intro f
  induction f with
  | zero =>
    intro j h
    simp [chainStop] at h
    simp [innerScan, h, chainRefs]
  | succ f ih =>
    intro j h
    by_cases hj : j = 0
    · subst hj; simp [innerScan, chainRefs_zero]
    · rw [chainStop_succ _ _ _ hj] at h
      simp only [innerScan, if_neg hj]
      rw [ih _ h, chainRefs_succ _ _ _ hj, List.map_cons, List.countP_cons]
      by_cases hc : (refs.getD j default).Ref < W
      · rw [if_pos hc, if_neg (by rw [decide_eq_true_eq]; omega)]
        omega
      · rw [if_neg hc, if_pos (by rw [decide_eq_true_eq]; omega)]
        omega

theorem outerScan_eq (refs : List UGridReference) (W : Nat) :
    ∀ f i, chainStop refs f i = 0 →
      outerScan refs W f i =
        (maxL ((chainRefs refs f i).map fun k => (refs.getD k default).Ref),
         countCell W ((chainRefs refs f i).map fun k => (refs.getD k default).Ref)) := by
  intro f
  induction f with
  | zero =>
    intro i h
    simp [chainStop] at h
    simp [outerScan, h, chainRefs, maxL, countCell]
  | succ f ih =>
    intro i h
    by_cases hi : i = 0
    · subst hi; simp [outerScan, chainRefs_zero, maxL, countCell]
    · rw [chainStop_succ _ _ _ hi] at h
      simp only [outerScan, if_neg hi]
      rw [ih _ h, innerScan_eq refs W f _ h, chainRefs_succ _ _ _ hi, List.map_cons,
        maxL_cons, countCell]

theorem scanFold (g : UGrid) (hg : WF g) :
    ∀ (js : List Nat), (∀ j ∈ js, j < g.Cells.length) → ∀ (W T : Nat),
      js.foldl g.scanStep (W, T) =
        (js.foldl (fun w ci => max w (maxL (g.chainEnts ci))) W,
         T + scanPure W (js.map g.chainEnts)) := by
  intro js
  induction js with
  | nil => intro _ W T; simp [scanPure]
  | cons c cs ih =>
    intro hb W T
    rw [List.foldl_cons, List.foldl_cons, List.map_cons, scanPure]
    have hc : c < g.Cells.length := hb c (List.mem_cons_self _ _)
    have hstep : g.scanStep (W, T) c =
        (max W (maxL (g.chainEnts c)), T + countCell W (g.chainEnts c)) := by
      rw [UGrid.scanStep]
      have : g.Cells.getD c 0 = g.headAt c := rfl
      rw [this, outerScan_eq _ _ _ _ (hg.term c hc)]
      rfl
    rw [hstep, ih (fun j hj => hb j (List.mem_cons_of_mem _ hj))]
    rw [Nat.add_assoc]

theorem scanCount_eq (g : UGrid) (hg : WF g) : g.scanCount = scanPure 0 g.chains := by
  rw [UGrid.scanCount, UGrid.scannedCells, List.range_succ, List.foldl_append,
    List.foldl_cons, List.foldl_nil]
  rw [scanFold g hg _ (fun j hj => List.mem_range.mp hj) 0 0]
  have h0 : g.Cells.getD g.Cells.length 0 = 0 := List.getD_eq_default _ _ (le_refl _)
  rw [UGrid.scanStep, h0, outerScan_zero]
  show 0 + scanPure 0 ((List.range g.Cells.length).map g.chainEnts) + 0 = _
  rw [UGrid.chains]
  omega

/-!
## Well-formedness of constructed and inserted-into grids
-/

theorem wf_mkGrid (cells : UGridCell) (dim : UGridDim) : WF (mkGrid cells dim) := by
  have hhead : ∀ ci, (mkGrid cells dim).headAt ci = 0 := by
    intro ci
    show (List.replicate (cells.X * cells.Y % U32) 0).getD ci 0 = 0
    simp [List.getD]
  constructor
  · exact le_refl _
  · exact le_refl _
  · intro ci _; rw [hhead, chainStop_zero]
  · intro ci _ i hi
    rw [UGrid.chainIdxs, hhead, chainRefs_zero] at hi
    simp at hi
  · intro ci _ i hi
    rw [UGrid.chainIdxs, hhead, chainRefs_zero] at hi
    simp at hi
  · intro ci _ i hi
    rw [UGrid.chainIdxs, hhead, chainRefs_zero] at hi
    simp at hi
  · intro v hv
    have hv0 : v = 0 := by
      show v = 0
      have : v < ([(default : UGridEntity)]).length := hv
      simpa using this
    subst hv0
    rfl
  · intro ci _
    rw [UGrid.chainEnts, UGrid.chainIdxs, hhead, chainRefs_zero]
    exact List.nodup_nil

theorem chain_append_stable (refs L : List UGridReference) :
    ∀ f i, chainStop refs f i = 0 → (∀ j ∈ chainRefs refs f i, j < refs.length) →
      chainStop (refs ++ L) f i = 0 ∧ chainRefs (refs ++ L) f i = chainRefs refs f i := by
  intro f
  induction f with
  | zero =>
    intro i h _
    simp [chainStop] at h
    subst h
    exact ⟨chainStop_zero _ _, by rw [chainRefs_zero, chainRefs_zero]⟩
  | succ f ih =>
    intro i h hb
    by_cases hi : i = 0
    · subst hi
      exact ⟨chainStop_zero _ _, by rw [chainRefs_zero, chainRefs_zero]⟩
    · have hilt : i < refs.length := by
        refine hb i ?_
        rw [chainRefs_succ _ _ _ hi]
        exact List.mem_cons_self _ _
      have hgd : (refs ++ L).getD i default = refs.getD i default :=
        List.getD_append _ _ _ _ hilt
      rw [chainStop_succ _ _ _ hi] at h
      have hb' : ∀ j ∈ chainRefs refs f (refs.getD i default).Next, j < refs.length := by
        intro j hj
        refine hb j ?_
        rw [chainRefs_succ _ _ _ hi]
        exact List.mem_cons_of_mem _ hj
      obtain ⟨s1, s2⟩ := ih _ h hb'
      refine ⟨?_, ?_⟩
      · rw [chainStop_succ _ _ _ hi, hgd]
        exact s1
      · rw [chainRefs_succ _ _ _ hi, chainRefs_succ _ _ _ hi, hgd, s2]

theorem wf_append_entity (g : UGrid) (hg : WF g) (e : UGridEntity) (he : e.Copied = 0) :
    WF { g with Entities := g.Entities ++ [e] } := by
  have hsame : ∀ ci, ({ g with Entities := g.Entities ++ [e] } : UGrid).chainIdxs ci =
      g.chainIdxs ci := fun _ => rfl
  constructor
  · exact hg.refs_ne
  · show 1 ≤ (g.Entities ++ [e]).length
    rw [List.length_append]
    have := hg.ents_ne
    omega
  · exact hg.term
  · intro ci hci i hi
    rw [hsame] at hi
    exact hg.idx_lt ci hci i hi
  · intro ci hci i hi
    rw [hsame] at hi
    exact hg.ref_pos ci hci i hi
  · intro ci hci i hi
    rw [hsame] at hi
    have := hg.ref_lt ci hci i hi
    show (g.refAt i).Ref < (g.Entities ++ [e]).length
    rw [List.length_append]
    omega
  · intro v hv
    show ((g.Entities ++ [e]).getD v default).Copied = 0
    rw [List.length_append, List.length_singleton] at hv
    by_cases hvl : v < g.Entities.length
    · rw [List.getD_append _ _ _ _ hvl]
      exact hg.copied0 v hvl
    · have hveq : v = g.Entities.length := by omega
      rw [List.getD_append_right _ _ _ _ (by omega), hveq, Nat.sub_self]
      exact he
  · exact hg.nodup

theorem insertCell_spec (g : UGrid) (hg : WF g) (ci ei : Nat)
    (h1 : 1 ≤ ei) (h2 : ei < g.Entities.length) (hfresh : ei ∉ g.chainEnts ci) :
    WF (g.insertCell ci ei) ∧
    (∀ cj, cj ≠ ci → (g.insertCell ci ei).chainEnts cj = g.chainEnts cj) ∧
    (ci < g.Cells.length → (g.insertCell ci ei).chainEnts ci = ei :: g.chainEnts ci) ∧
    (g.Cells.length ≤ ci → (g.insertCell ci ei).chainEnts ci = g.chainEnts ci) ∧
    (g.insertCell ci ei).Cells.length = g.Cells.length ∧
    (g.insertCell ci ei).Entities = g.Entities := by
  have hrefs' : (g.insertCell ci ei).References =
      g.References ++ [⟨g.headAt ci, ei⟩] := rfl
  have hcells' : (g.insertCell ci ei).Cells = g.Cells.set ci g.References.length := rfl
  have hents' : (g.insertCell ci ei).Entities = g.Entities := rfl
  have hflen : (g.insertCell ci ei).References.length = g.References.length + 1 := by
    rw [hrefs']; simp
  have hclen : (g.insertCell ci ei).Cells.length = g.Cells.length := by
    rw [hcells', List.length_set]
  have hstable : ∀ h, chainStop g.References g.References.length h = 0 →
      (∀ j ∈ chainRefs g.References g.References.length h, j < g.References.length) →
      chainStop (g.insertCell ci ei).References (g.insertCell ci ei).References.length h = 0 ∧
      chainRefs (g.insertCell ci ei).References (g.insertCell ci ei).References.length h =
        chainRefs g.References g.References.length h := by
    intro h hterm hb
    have hterm1 : chainStop g.References (g.References.length + 1) h = 0 :=
      chainStop_succ_of_zero _ _ _ hterm
    have hcr1 : chainRefs g.References (g.References.length + 1) h =
        chainRefs g.References g.References.length h :=
      chainRefs_of_le _ _ (Nat.le_succ _) hterm
    have hb1 : ∀ j ∈ chainRefs g.References (g.References.length + 1) h,
        j < g.References.length := by
      rw [hcr1]; exact hb
    obtain ⟨s1, s2⟩ :=
      chain_append_stable g.References [⟨g.headAt ci, ei⟩] _ h hterm1 hb1
    rw [hflen, hrefs']
    exact ⟨s1, by rw [s2, hcr1]⟩
  have hrefAt : ∀ i, i < g.References.length →
      (g.insertCell ci ei).refAt i = g.refAt i := by
    intro i hi
    show (g.insertCell ci ei).References.getD i default = g.References.getD i default
    rw [hrefs']
    exact List.getD_append _ _ _ _ hi
  have hhead_ne : ∀ cj, cj ≠ ci → (g.insertCell ci ei).headAt cj = g.headAt cj := by
    intro cj hne
    show (g.insertCell ci ei).Cells.getD cj 0 = g.Cells.getD cj 0
    rw [hcells']
    exact getD_set_ne _ _ _ (fun h => hne h.symm)
  have hhigh : ∀ cj, g.Cells.length ≤ cj → (g.insertCell ci ei).headAt cj = 0 ∧
      g.headAt cj = 0 := by
    intro cj hcj
    constructor
    · show (g.insertCell ci ei).Cells.getD cj 0 = 0
      refine List.getD_eq_default _ _ ?_
      rw [hclen]; exact hcj
    · exact List.getD_eq_default _ _ hcj
  -- chains of every cell other than `ci` are untouched
  have hchain_ne : ∀ cj, cj ≠ ci →
      (g.insertCell ci ei).chainIdxs cj = g.chainIdxs cj ∧
      (g.insertCell ci ei).chainEnts cj = g.chainEnts cj := by
    intro cj hne
    by_cases hcj : cj < g.Cells.length
    · have hidx : (g.insertCell ci ei).chainIdxs cj = g.chainIdxs cj := by
        rw [UGrid.chainIdxs, hhead_ne cj hne]
        exact (hstable _ (hg.term cj hcj) (hg.idx_lt cj hcj)).2
      refine ⟨hidx, ?_⟩
      rw [UGrid.chainEnts, hidx, UGrid.chainEnts]
      refine List.map_congr_left ?_
      intro i hi
      rw [hrefAt i (hg.idx_lt cj hcj i hi)]
    · have hcj' : g.Cells.length ≤ cj := Nat.le_of_not_lt hcj
      obtain ⟨e1, e2⟩ := hhigh cj hcj'
      have hn1 : (g.insertCell ci ei).chainIdxs cj = [] := by
        rw [UGrid.chainIdxs, e1, chainRefs_zero]
      have hn2 : g.chainIdxs cj = [] := by
        rw [UGrid.chainIdxs, e2, chainRefs_zero]
      refine ⟨hn1.trans hn2.symm, ?_⟩
      rw [UGrid.chainEnts, UGrid.chainEnts, hn1, hn2]
      simp
  by_cases hci : ci < g.Cells.length
  · -- the prepend case
    have hheadci : (g.insertCell ci ei).headAt ci = g.References.length := by
      show (g.insertCell ci ei).Cells.getD ci 0 = _
      rw [hcells']
      exact getD_set_self _ _ _ _ hci
    have hRne : g.References.length ≠ 0 := by
      have := hg.refs_ne; omega
    have hnewgd : (g.insertCell ci ei).References.getD g.References.length default =
        ⟨g.headAt ci, ei⟩ := by
      rw [hrefs', List.getD_append_right _ _ _ _ (le_refl _), Nat.sub_self]
      rfl
    obtain ⟨t1, t2⟩ := hstable (g.headAt ci) (hg.term ci hci) (hg.idx_lt ci hci)
    have hterm1 : chainStop (g.insertCell ci ei).References g.References.length
        (g.headAt ci) = 0 := by
      have hterm' : chainStop g.References g.References.length (g.headAt ci) = 0 :=
        hg.term ci hci
      have hb' := hg.idx_lt ci hci
      obtain ⟨s1, _⟩ := chain_append_stable g.References [⟨g.headAt ci, ei⟩]
        g.References.length (g.headAt ci) hterm' hb'
      rw [hrefs']
      exact s1
    have hcr1 : chainRefs (g.insertCell ci ei).References g.References.length
        (g.headAt ci) = g.chainIdxs ci := by
      have hterm' : chainStop g.References g.References.length (g.headAt ci) = 0 :=
        hg.term ci hci
      have hb' := hg.idx_lt ci hci
      obtain ⟨_, s2⟩ := chain_append_stable g.References [⟨g.headAt ci, ei⟩]
        g.References.length (g.headAt ci) hterm' hb'
      rw [hrefs']
      exact s2
    have hidx_ci : (g.insertCell ci ei).chainIdxs ci =
        g.References.length :: g.chainIdxs ci := by
      rw [UGrid.chainIdxs, hheadci, hflen, chainRefs_succ _ _ _ hRne, hnewgd]
      show _ :: chainRefs (g.insertCell ci ei).References g.References.length
        (g.headAt ci) = _
      rw [hcr1]
    have hterm_ci : chainStop (g.insertCell ci ei).References
        (g.insertCell ci ei).References.length
        ((g.insertCell ci ei).headAt ci) = 0 := by
      rw [hheadci, hflen, chainStop_succ _ _ _ hRne, hnewgd]
      show chainStop (g.insertCell ci ei).References g.References.length
        (g.headAt ci) = 0
      exact hterm1
    have hents_ci : (g.insertCell ci ei).chainEnts ci = ei :: g.chainEnts ci := by
      rw [UGrid.chainEnts, hidx_ci, List.map_cons]
      have hnew : ((g.insertCell ci ei).refAt g.References.length).Ref = ei := by
        show ((g.insertCell ci ei).References.getD g.References.length default).Ref = ei
        rw [hnewgd]
      rw [hnew, UGrid.chainEnts]
      refine congrArg _ (List.map_congr_left ?_)
      intro i hi
      rw [hrefAt i (hg.idx_lt ci hci i hi)]
    refine ⟨?_, fun cj hne => (hchain_ne cj hne).2, fun _ => hents_ci,
      fun hc => absurd hci (Nat.not_lt.mpr hc), hclen, hents'⟩
    constructor
    · rw [hflen]
      have := hg.refs_ne; omega
    · rw [hents']; exact hg.ents_ne
    · intro cj hcj
      rw [hclen] at hcj
      by_cases hne : cj = ci
      · subst hne; exact hterm_ci
      · rw [hhead_ne cj hne]
        exact (hstable _ (hg.term cj hcj) (hg.idx_lt cj hcj)).1
    · intro cj hcj i hi
      rw [hclen] at hcj
      rw [hflen]
      by_cases hne : cj = ci
      · subst hne
        rw [hidx_ci] at hi
        rcases List.mem_cons.mp hi with rfl | hi
        · omega
        · have := hg.idx_lt cj hcj i hi; omega
      · rw [(hchain_ne cj hne).1] at hi
        have := hg.idx_lt cj hcj i hi; omega
    · intro cj hcj i hi
      rw [hclen] at hcj
      by_cases hne : cj = ci
      · subst hne
        rw [hidx_ci] at hi
        rcases List.mem_cons.mp hi with rfl | hi
        · show 1 ≤ ((g.insertCell cj ei).References.getD g.References.length default).Ref
          rw [hnewgd]
          exact h1
        · rw [hrefAt i (hg.idx_lt cj hcj i hi)]
          exact hg.ref_pos cj hcj i hi
      · rw [(hchain_ne cj hne).1] at hi
        rw [hrefAt i (hg.idx_lt cj hcj i hi)]
        exact hg.ref_pos cj hcj i hi
    · intro cj hcj i hi
      rw [hclen] at hcj
      rw [hents']
      by_cases hne : cj = ci
      · subst hne
        rw [hidx_ci] at hi
        rcases List.mem_cons.mp hi with rfl | hi
        · show ((g.insertCell cj ei).References.getD g.References.length default).Ref
            < g.Entities.length
          rw [hnewgd]
          exact h2
        · rw [hrefAt i (hg.idx_lt cj hcj i hi)]
          exact hg.ref_lt cj hcj i hi
      · rw [(hchain_ne cj hne).1] at hi
        rw [hrefAt i (hg.idx_lt cj hcj i hi)]
        exact hg.ref_lt cj hcj i hi
    · intro v hv
      rw [hents'] at hv
      show (((g.insertCell ci ei).Entities.getD v default)).Copied = 0
      rw [hents']
      exact hg.copied0 v hv
    · intro cj hcj
      rw [hclen] at hcj
      by_cases hne : cj = ci
      · subst hne
        rw [hents_ci]
        exact List.nodup_cons.mpr ⟨hfresh, hg.nodup cj hcj⟩
      · rw [(hchain_ne cj hne).2]
        exact hg.nodup cj hcj
  · -- out-of-range cell: the head table is unchanged
    have hci' : g.Cells.length ≤ ci := Nat.le_of_not_lt hci
    have hchain_ci : (g.insertCell ci ei).chainIdxs ci = g.chainIdxs ci ∧
        (g.insertCell ci ei).chainEnts ci = g.chainEnts ci := by
      obtain ⟨e1, e2⟩ := hhigh ci hci'
      have hn1 : (g.insertCell ci ei).chainIdxs ci = [] := by
        rw [UGrid.chainIdxs, e1, chainRefs_zero]
      have hn2 : g.chainIdxs ci = [] := by
        rw [UGrid.chainIdxs, e2, chainRefs_zero]
      refine ⟨hn1.trans hn2.symm, ?_⟩
      rw [UGrid.chainEnts, UGrid.chainEnts, hn1, hn2]
      simp
    have hchain_all : ∀ cj, (g.insertCell ci ei).chainIdxs cj = g.chainIdxs cj ∧
        (g.insertCell ci ei).chainEnts cj = g.chainEnts cj := by
      intro cj
      by_cases hne : cj = ci
      · subst hne; exact hchain_ci
      · exact hchain_ne cj hne
    refine ⟨?_, fun cj hne => (hchain_ne cj hne).2,
      fun hc => absurd hc hci, fun _ => hchain_ci.2, hclen, hents'⟩
    constructor
    · rw [hflen]
      have := hg.refs_ne; omega
    · rw [hents']; exact hg.ents_ne
    · intro cj hcj
      rw [hclen] at hcj
      by_cases hne : cj = ci
      · exact absurd (hne ▸ hcj) hci
      · rw [hhead_ne cj hne]
        exact (hstable _ (hg.term cj hcj) (hg.idx_lt cj hcj)).1
    · intro cj hcj i hi
      rw [hclen] at hcj
      rw [(hchain_all cj).1] at hi
      rw [hflen]
      have := hg.idx_lt cj hcj i hi; omega
    · intro cj hcj i hi
      rw [hclen] at hcj
      rw [(hchain_all cj).1] at hi
      rw [hrefAt i (hg.idx_lt cj hcj i hi)]
      exact hg.ref_pos cj hcj i hi
    · intro cj hcj i hi
      rw [hclen] at hcj
      rw [(hchain_all cj).1] at hi
      rw [hents', hrefAt i (hg.idx_lt cj hcj i hi)]
      exact hg.ref_lt cj hcj i hi
    · intro v hv
      rw [hents'] at hv
      show (((g.insertCell ci ei).Entities.getD v default)).Copied = 0
      rw [hents']
      exact hg.copied0 v hv
    · intro cj hcj
      rw [hclen] at hcj
      rw [(hchain_all cj).2]
      exact hg.nodup cj hcj

/-!
## The insertion loop over a list of cells
-/

theorem pairwise_of_forall {P : Nat → Nat → Prop} (h : ∀ a b : Nat, P a b) :
    ∀ l : List Nat, l.Pairwise P
  | [] => List.Pairwise.nil
  | a :: t => List.Pairwise.cons (fun b _ => h a b) (pairwise_of_forall h t)

theorem insertLoop_spec :
    ∀ (cis : List Nat) (g0 : UGrid) (ei : Nat), WF g0 →
      1 ≤ ei → ei < g0.Entities.length →
      cis.Pairwise (fun a b => a = b → g0.Cells.length ≤ a) →
      (∀ c ∈ cis, ei ∉ g0.chainEnts c) →
      WF (cis.foldl (fun h c => h.insertCell c ei) g0) ∧
      (∀ c ∈ cis, c < g0.Cells.length →
        (cis.foldl (fun h c => h.insertCell c ei) g0).chainEnts c =
          ei :: g0.chainEnts c) ∧
      (∀ c, c ∉ cis →
        (cis.foldl (fun h c => h.insertCell c ei) g0).chainEnts c = g0.chainEnts c) ∧
      (∀ c, g0.Cells.length ≤ c →
        (cis.foldl (fun h c => h.insertCell c ei) g0).chainEnts c = g0.chainEnts c) ∧
      (cis.foldl (fun h c => h.insertCell c ei) g0).Cells.length = g0.Cells.length ∧
      (cis.foldl (fun h c => h.insertCell c ei) g0).Entities = g0.Entities := by
  intro cis
  induction cis with
  | nil =>
    intro g0 ei hg _ _ _ _
    exact ⟨hg, by simp, fun c _ => rfl, fun c _ => rfl, rfl, rfl⟩
  | cons c rest ih =>
    intro g0 ei hg h1 h2 hpw hfresh
    rw [List.foldl_cons]
    obtain ⟨hpw1, hpw2⟩ := List.pairwise_cons.mp hpw
    obtain ⟨w_wf, w_ne, w_in, w_out, w_len, w_ents⟩ :=
      insertCell_spec g0 hg c ei h1 h2 (hfresh c (List.mem_cons_self _ _))
    have hpw' : rest.Pairwise
        (fun a b => a = b → (g0.insertCell c ei).Cells.length ≤ a) := by
      rw [w_len]; exact hpw2
    have hfresh' : ∀ d ∈ rest, ei ∉ (g0.insertCell c ei).chainEnts d := by
      intro d hd
      by_cases hdc : d = c
      · subst hdc
        rw [w_out (hpw1 d hd rfl)]
        exact hfresh d (List.mem_cons_self _ _)
      · rw [w_ne d hdc]
        exact hfresh d (List.mem_cons_of_mem _ hd)
    have h2' : ei < (g0.insertCell c ei).Entities.length := by
      rw [w_ents]; exact h2
    obtain ⟨i_wf, i_in, i_notin, i_out, i_len, i_ents⟩ :=
      ih (g0.insertCell c ei) ei w_wf h1 h2' hpw' hfresh'
    refine ⟨i_wf, ?_, ?_, ?_, i_len.trans w_len, i_ents.trans w_ents⟩
    · intro d hd hdlt
      by_cases hdc : d = c
      · subst hdc
        have hcnotin : d ∉ rest := by
          intro hmem
          have := hpw1 d hmem rfl
          omega
        rw [i_notin d hcnotin, w_in hdlt]
      · have hdr : d ∈ rest := by
          rcases List.mem_cons.mp hd with h | h
          · exact absurd h hdc
          · exact h
        rw [i_in d hdr (by rw [w_len]; exact hdlt), w_ne d hdc]
    · intro d hd
      have hdc : d ≠ c := fun h => hd (h ▸ List.mem_cons_self _ _)
      have hdr : d ∉ rest := fun h => hd (List.mem_cons_of_mem _ h)
      rw [i_notin d hdr, w_ne d hdc]
    · intro d hd
      have hd' : (g0.insertCell c ei).Cells.length ≤ d := by rw [w_len]; exact hd
      rw [i_out d hd']
      by_cases hdc : d = c
      · subst hdc
        exact w_out hd
      · exact w_ne d hdc

/-!
## Flattening the nested insertion loops of `Insert`
-/

theorem inner_foldl (idx x : Nat) (G : UGridCell) :
    ∀ (ys : List Nat) (gx : UGrid), gx.GridCells = G →
      (ys.foldl (fun gy y => gy.insertCell (gy.cellIndex x y) idx) gx =
        (ys.map (fun y => (x * G.Y + y) % U32)).foldl
          (fun h c => h.insertCell c idx) gx) ∧
      (ys.foldl (fun gy y => gy.insertCell (gy.cellIndex x y) idx) gx).GridCells = G := by
  intro ys
  induction ys with
  | nil => intro gx hG; exact ⟨rfl, hG⟩
  | cons y t ih =>
    intro gx hG
    rw [List.foldl_cons, List.map_cons, List.foldl_cons]
    have hci : gx.cellIndex x y = (x * G.Y + y) % U32 := by
      rw [UGrid.cellIndex, hG]
    rw [hci]
    exact ih (gx.insertCell ((x * G.Y + y) % U32) idx) hG

theorem outer_foldl (idx : Nat) (G : UGridCell) (sy ny : Nat) :
    ∀ (xs : List Nat) (g0 : UGrid), g0.GridCells = G →
      (xs.foldl (fun gx x => (List.range' sy ny).foldl
          (fun gy y => gy.insertCell (gy.cellIndex x y) idx) gx) g0 =
        (xs.flatMap (fun x => (List.range' sy ny).map
          (fun y => (x * G.Y + y) % U32))).foldl
          (fun h c => h.insertCell c idx) g0) ∧
      (xs.foldl (fun gx x => (List.range' sy ny).foldl
          (fun gy y => gy.insertCell (gy.cellIndex x y) idx) gx) g0).GridCells = G := by
  intro xs
  induction xs with
  | nil => intro g0 hG; exact ⟨rfl, hG⟩
  | cons x t ih =>
    intro g0 hG
    rw [List.foldl_cons, List.flatMap_cons, List.foldl_append]
    obtain ⟨e1, e2⟩ := inner_foldl idx x G (List.range' sy ny) g0 hG
    rw [e1] at e2
    rw [e1]
    exact ih _ e2

theorem foldl_insert_fields (ei : Nat) :
    ∀ (cis : List Nat) (g0 : UGrid),
      (cis.foldl (fun h c => h.insertCell c ei) g0).GridCells = g0.GridCells ∧
      (cis.foldl (fun h c => h.insertCell c ei) g0).CellDim = g0.CellDim ∧
      (cis.foldl (fun h c => h.insertCell c ei) g0).InverseCellDim = g0.InverseCellDim := by
  intro cis
  induction cis with
  | nil => intro g0; exact ⟨rfl, rfl, rfl⟩
  | cons c t ih => intro g0; exact ih (g0.insertCell c ei)

theorem fresh_idx (g : UGrid) (hg : WF g) :
    ∀ c, g.Entities.length ∉ g.chainEnts c := by
  intro c hmem
  by_cases hc : c < g.Cells.length
  · rcases List.mem_map.mp hmem with ⟨i, hi, href⟩
    have := hg.ref_lt c hc i hi
    omega
  · have h0 : g.headAt c = 0 := List.getD_eq_default _ _ (Nat.le_of_not_lt hc)
    rw [UGrid.chainEnts, UGrid.chainIdxs, h0, chainRefs_zero] at hmem
    simp at hmem

/-!
## Row-major cell indices are injective below the overflow bound
-/

theorem cell_lt {X Y x y : Nat} (hx : x < X) (hy : y < Y) : x * Y + y < X * Y := by
  have h1 : x * Y + y < (x + 1) * Y := by rw [Nat.succ_mul]; omega
  have h2 : (x + 1) * Y ≤ X * Y := Nat.mul_le_mul_right _ hx
  omega

theorem cellIndex_inj {Y x y x' y' : Nat} (hy : y < Y) (hy' : y' < Y)
    (h : x * Y + y = x' * Y + y') : x = x' ∧ y = y' := by
  have hxx : x = x' := by
    by_contra hne
    rcases Nat.lt_or_ge x x' with hlt | hge
    · have h1 : x * Y + y < (x + 1) * Y := by rw [Nat.succ_mul]; omega
      have h2 : (x + 1) * Y ≤ x' * Y := Nat.mul_le_mul_right _ hlt
      omega
    · have hlt' : x' < x := by omega
      have h1 : x' * Y + y' < (x' + 1) * Y := by rw [Nat.succ_mul]; omega
      have h2 : (x' + 1) * Y ≤ x * Y := Nat.mul_le_mul_right _ hlt'
      omega
  subst hxx
  omega

theorem u32sub1_eq {X : Nat} (h1 : 1 ≤ X) (h2 : X ≤ U32) : u32sub1 X = X - 1 := by
  have hU : 1 ≤ U32 := by norm_num [U32]
  rw [u32sub1]
  have hsplit : X + (U32 - 1) = (X - 1) + 1 * U32 := by omega
  rw [hsplit, Nat.add_mul_mod_self_right]
  exact Nat.mod_eq_of_lt (by omega)

theorem rect_nodup {X Y : Nat} (hover : X * Y < U32) :
    ∀ (xs ys : List Nat), xs.Nodup → ys.Nodup →
      (∀ x ∈ xs, x < X) → (∀ y ∈ ys, y < Y) →
      (xs.flatMap (fun x => ys.map (fun y => (x * Y + y) % U32))).Nodup := by
  intro xs
  induction xs with
  | nil => intro ys _ _ _ _; simp
  | cons x t ih =>
    intro ys hxnd hynd hxb hyb
    rw [List.flatMap_cons]
    obtain ⟨hxt, htnd⟩ := List.nodup_cons.mp hxnd
    have hxX : x < X := hxb x (List.mem_cons_self _ _)
    have hmodid : ∀ a b, a < X → b < Y → (a * Y + b) % U32 = a * Y + b := by
      intro a b ha hb
      exact Nat.mod_eq_of_lt (lt_trans (cell_lt ha hb) hover)
    refine List.Nodup.append ?_
      (ih ys htnd hynd (fun a ha => hxb a (List.mem_cons_of_mem _ ha)) hyb) ?_
    · refine List.Nodup.map_on ?_ hynd
      intro a ha b hb hab
      have haY := hyb a ha
      have hbY := hyb b hb
      rw [hmodid x a hxX haY, hmodid x b hxX hbY] at hab
      omega
    · intro p hp hq
      rcases List.mem_map.mp hp with ⟨b, hb, rfl⟩
      rcases List.mem_flatMap.mp hq with ⟨a, ha, hpa⟩
      rcases List.mem_map.mp hpa with ⟨b', hb', heq⟩
      have haX : a < X := hxb a (List.mem_cons_of_mem _ ha)
      have hbY := hyb b hb
      have hbY' := hyb b' hb'
      rw [hmodid x b hxX hbY, hmodid a b' haX hbY'] at heq
      obtain ⟨hax, _⟩ := cellIndex_inj hbY' hbY heq
      exact hxt (hax ▸ ha)

/-!
## `Insert` preserves the reachability invariant
-/

theorem insert_eq_rect (g : UGrid) (e : UGridEntity) :
    g.Insert e = (g.rectCells e).foldl
      (fun h c => h.insertCell c g.Entities.length)
      { g with Entities := g.Entities ++ [e] } := by
  have h0 : g.Insert e =
      (List.range' (g.insStart e).X ((g.insEnd e).X + 1 - (g.insStart e).X)).foldl
        (fun gx x =>
          (List.range' (g.insStart e).Y
            ((g.insEnd e).Y + 1 - (g.insStart e).Y)).foldl
            (fun gy y => gy.insertCell (gy.cellIndex x y) g.Entities.length) gx)
        { g with Entities := g.Entities ++ [e] } := rfl
  rw [h0, UGrid.rectCells]
  exact (outer_foldl g.Entities.length g.GridCells (g.insStart e).Y
    ((g.insEnd e).Y + 1 - (g.insStart e).Y)
    (List.range' (g.insStart e).X ((g.insEnd e).X + 1 - (g.insStart e).X))
    { g with Entities := g.Entities ++ [e] } rfl).1

theorem axis_le_sub1 {X : Nat} (h1 : 1 ≤ X) (h2 : X ≤ U32) (t : Nat) :
    min (u32sub1 X) t ≤ X - 1 := by
  rw [u32sub1_eq h1 h2]
  exact min_le_left _ _

theorem rectCells_lt (g : UGrid) (e : UGridEntity) (hg : RInv g)
    (hx : 1 ≤ g.GridCells.X) (hy : 1 ≤ g.GridCells.Y) :
    ∀ c ∈ g.rectCells e, c < g.Cells.length := by
  have hXle : g.GridCells.X ≤ U32 := by
    have := hg.geom
    have : g.GridCells.X * 1 ≤ g.GridCells.X * g.GridCells.Y :=
      Nat.mul_le_mul_left _ hy
    omega
  have hYle : g.GridCells.Y ≤ U32 := by
    have := hg.geom
    have : 1 * g.GridCells.Y ≤ g.GridCells.X * g.GridCells.Y :=
      Nat.mul_le_mul_right _ hx
    omega
  intro c hc
  rcases List.mem_flatMap.mp hc with ⟨x, hxmem, hcm⟩
  rcases List.mem_map.mp hcm with ⟨y, hymem, rfl⟩
  obtain ⟨hx1, hx2⟩ := List.mem_range'_1.mp hxmem
  obtain ⟨hy1, hy2⟩ := List.mem_range'_1.mp hymem
  have hxX : x < g.GridCells.X := by
    have := axis_le_sub1 hx hXle
      (ratTrunc (max (e.Pos.X + e.Dim.W) 0 * g.InverseCellDim.W))
    have hE : (g.insEnd e).X ≤ g.GridCells.X - 1 := this
    omega
  have hyY : y < g.GridCells.Y := by
    have := axis_le_sub1 hy hYle
      (ratTrunc (max (e.Pos.Y + e.Dim.H) 0 * g.InverseCellDim.H))
    have hE : (g.insEnd e).Y ≤ g.GridCells.Y - 1 := this
    omega
  have hlt : x * g.GridCells.Y + y < g.GridCells.X * g.GridCells.Y :=
    cell_lt hxX hyY
  have hsm : x * g.GridCells.Y + y < U32 := lt_trans hlt hg.geom
  rw [Nat.mod_eq_of_lt hsm, hg.cells_len, Nat.mod_eq_of_lt hg.geom]
  exact hlt

theorem rectCells_nodup (g : UGrid) (e : UGridEntity) (hg : RInv g)
    (hx : 1 ≤ g.GridCells.X) (hy : 1 ≤ g.GridCells.Y) :
    (g.rectCells e).Nodup := by
  have hXle : g.GridCells.X ≤ U32 := by
    have := hg.geom
    have : g.GridCells.X * 1 ≤ g.GridCells.X * g.GridCells.Y :=
      Nat.mul_le_mul_left _ hy
    omega
  have hYle : g.GridCells.Y ≤ U32 := by
    have := hg.geom
    have : 1 * g.GridCells.Y ≤ g.GridCells.X * g.GridCells.Y :=
      Nat.mul_le_mul_right _ hx
    omega
  refine rect_nodup hg.geom _ _ (List.nodup_range' _ _) (List.nodup_range' _ _) ?_ ?_
  · intro x hxmem
    obtain ⟨hx1, hx2⟩ := List.mem_range'_1.mp hxmem
    have := axis_le_sub1 hx hXle
      (ratTrunc (max (e.Pos.X + e.Dim.W) 0 * g.InverseCellDim.W))
    have hE : (g.insEnd e).X ≤ g.GridCells.X - 1 := this
    omega
  · intro y hymem
    obtain ⟨hy1, hy2⟩ := List.mem_range'_1.mp hymem
    have := axis_le_sub1 hy hYle
      (ratTrunc (max (e.Pos.Y + e.Dim.H) 0 * g.InverseCellDim.H))
    have hE : (g.insEnd e).Y ≤ g.GridCells.Y - 1 := this
    omega

theorem rectCells_pairwise (g : UGrid) (e : UGridEntity) (hg : RInv g) :
    (g.rectCells e).Pairwise (fun a b => a = b → g.Cells.length ≤ a) := by
  by_cases hx : 1 ≤ g.GridCells.X
  · by_cases hy : 1 ≤ g.GridCells.Y
    · exact (rectCells_nodup g e hg hx hy).imp (fun hne heq => (hne heq).elim)
    · have hlen : g.Cells.length = 0 := by
        rw [hg.cells_len]
        have : g.GridCells.Y = 0 := by omega
        simp [this]
      exact pairwise_of_forall (fun a b _ => by omega) _
  · have hlen : g.Cells.length = 0 := by
      rw [hg.cells_len]
      have : g.GridCells.X = 0 := by omega
      simp [this]
    exact pairwise_of_forall (fun a b _ => by omega) _

theorem insert_spec (g : UGrid) (e : UGridEntity) (hg : RInv g)
    (he : e.Copied = 0) :
    RInv (g.Insert e) ∧
    (g.Insert e).Entities = g.Entities ++ [e] ∧
    (g.Insert e).Cells.length = g.Cells.length ∧
    (g.Insert e).GridCells = g.GridCells ∧
    (1 ≤ g.GridCells.X → 1 ≤ g.GridCells.Y →
      (∀ c ∈ g.rectCells e,
        (g.Insert e).chainEnts c = g.Entities.length :: g.chainEnts c) ∧
      (∀ c, c ∉ g.rectCells e → (g.Insert e).chainEnts c = g.chainEnts c)) := by
  have hflat := insert_eq_rect g e
  have hg1wf : WF { g with Entities := g.Entities ++ [e] } :=
    wf_append_entity g hg.wf e he
  have h1le : 1 ≤ g.Entities.length := hg.wf.ents_ne
  have hlt : g.Entities.length <
      ({ g with Entities := g.Entities ++ [e] } : UGrid).Entities.length := by
    show g.Entities.length < (g.Entities ++ [e]).length
    rw [List.length_append]
    simp
  have hpw : (g.rectCells e).Pairwise
      (fun a b => a = b →
        ({ g with Entities := g.Entities ++ [e] } : UGrid).Cells.length ≤ a) :=
    rectCells_pairwise g e hg
  have hfresh : ∀ c ∈ g.rectCells e,
      g.Entities.length ∉
        ({ g with Entities := g.Entities ++ [e] } : UGrid).chainEnts c :=
    fun c _ => fresh_idx g hg.wf c
  obtain ⟨w_wf, w_in, w_out, w_ge, w_len, w_ents⟩ :=
    insertLoop_spec (g.rectCells e) { g with Entities := g.Entities ++ [e] }
      g.Entities.length hg1wf h1le hlt hpw hfresh
  have hfields := foldl_insert_fields g.Entities.length (g.rectCells e)
    { g with Entities := g.Entities ++ [e] }
  refine ⟨⟨?_, ?_, ?_⟩, ?_, ?_, ?_, ?_⟩
  · rw [hflat]; exact w_wf
  · rw [hflat, w_len, hfields.1]
    exact hg.cells_len
  · rw [hflat, hfields.1]
    exact hg.geom
  · rw [hflat, w_ents]
  · rw [hflat, w_len]
  · rw [hflat, hfields.1]
  · intro hx hy
    constructor
    · intro c hc
      rw [hflat]
      exact w_in c hc (rectCells_lt g e hg hx hy c hc)
    · intro c hc
      rw [hflat]
      exact w_out c hc

theorem reach_rinv : ∀ g, Reach g → RInv g := by
  intro g h
  induction h with
  | init cells dim hover =>
    refine ⟨wf_mkGrid cells dim, ?_, hover⟩
    show (List.replicate (cells.X * cells.Y % U32) 0).length = _
    simp [mkGrid]
  | insert g e _ he ih => exact (insert_spec g e ih he).1
  | tick g _ ih =>
    have heq := optimize_eq_spec g ih.wf
    refine ⟨?_, ?_, ?_⟩
    · rw [heq]; exact wf_optimizeSpec g ih.wf
    · rw [heq]
      show (buildHeads 1 (renumber g.chains)).length = _
      rw [buildHeads_length, renumber, List.length_map, chains_length]
      exact ih.cells_len
    · rw [heq]
      exact ih.geom

/-!
## The slot arena never hands out index 0
-/

theorem arena_inv (a : SlotArena) (h : ReachArena a) :
    1 ≤ a.Used ∧ ∀ i ∈ a.FreeList, 1 ≤ i ∧ i < a.Used := by
  induction h with
  | init => exact ⟨le_refl _, by simp [SlotArena.init]⟩
  | get a _ ih =>
    obtain ⟨u, fl⟩ := a
    obtain ⟨h1, h2⟩ := ih
    rcases fl with _ | ⟨f, t⟩
    · refine ⟨?_, ?_⟩
      · show 1 ≤ u + 1
        omega
      · intro i hi
        exact (List.not_mem_nil i hi).elim
    · refine ⟨h1, ?_⟩
      intro i hi
      exact h2 i (List.mem_cons_of_mem f hi)
  | ret a i _ h1 h2 ih =>
    refine ⟨ih.1, ?_⟩
    intro j hj
    rcases List.mem_cons.mp hj with rfl | hj
    · exact ⟨h1, h2⟩
    · exact ih.2 j hj

theorem get_pos (a : SlotArena) (h : ReachArena a) : 1 ≤ (a.Get).1 := by
  obtain ⟨h1, h2⟩ := arena_inv a h
  obtain ⟨u, fl⟩ := a
  rcases fl with _ | ⟨f, t⟩
  · exact h1
  · exact (h2 f (List.mem_cons_self f t)).1

/-!
## Every record `Optimize` stores has `Copied = 0`
-/

theorem optChain_copied (refs : List UGridReference) :
    ∀ (fuel i : Nat) (s : OptSt),
      (∀ rec ∈ s.newEnts, rec.Copied = 0) →
      ∀ rec ∈ (optChain refs fuel i s).1.newEnts, rec.Copied = 0 := by
  intro fuel
  induction fuel with
  | zero => intro i s hs; exact hs
  | succ fuel ih =>
    intro i s hs
    rw [optChain]
    by_cases hi : i = 0
    · rw [if_pos hi]; exact hs
    · rw [if_neg hi]
      dsimp only
      apply ih
      intro rec hrec
      dsimp only at hrec
      by_cases hc : (s.oldEnts.getD (refs.getD i default).Ref default).Copied = 0
      · rw [if_pos hc] at hrec
        rcases List.mem_append.mp hrec with h | h
        · exact hs rec h
        · rw [List.mem_singleton] at h
          rw [h]
          exact hc
      · rw [if_neg hc] at hrec
        exact hs rec hrec

theorem optFold_copied (g : UGrid) :
    ∀ (cis : List Nat) (acc : OptSt × List Nat),
      (∀ rec ∈ acc.1.newEnts, rec.Copied = 0) →
      ∀ rec ∈ (cis.foldl g.optStep acc).1.newEnts, rec.Copied = 0 := by
  intro cis
  induction cis with
  | nil => intro acc h; exact h
  | cons c t ih =>
    intro acc h
    rw [List.foldl_cons]
    apply ih
    rw [UGrid.optStep]
    rcases hoc : optChain g.References g.References.length (acc.2.getD c 0) acc.1
      with ⟨S, o⟩
    have hS : ∀ rec ∈ S.newEnts, rec.Copied = 0 := by
      have := optChain_copied g.References g.References.length (acc.2.getD c 0) acc.1 h
      rw [hoc] at this
      exact this
    rcases o with _ | hd
    · exact hS
    · exact hS

theorem optimize_copied_zero (g : UGrid) :
    ∀ rec ∈ (g.Optimize).Entities, rec.Copied = 0 := by
  intro rec hrec
  rw [UGrid.Optimize] at hrec
  refine optFold_copied g g.scannedCells g.optInit ?_ rec hrec
  intro r hr
  rw [UGrid.optInit] at hr
  rw [List.mem_singleton] at hr
  rw [hr]
  rfl

/-!
## First-discovery cell order bounds the compacted indices
-/

theorem mem_take_of_lt (l : List (List Nat)) (m k : Nat) (hk : k < l.length)
    (hkm : k < m) : l[k] ∈ l.take m := by
  have h1 : k < (l.take m).length := by
    rw [List.length_take]; omega
  have h2 : (l.take m)[k] = l[k] := List.getElem_take l
  exact h2 ▸ List.getElem_mem h1

theorem take_mem_idx (l : List (List Nat)) (m : Nat) (c : List Nat)
    (hc : c ∈ l.take m) : ∃ j, ∃ h : j < l.length, j < m ∧ l[j] = c := by
  obtain ⟨j, hj, hje⟩ := List.getElem_of_mem hc
  have hjl : j < l.length := by
    have := hj; rw [List.length_take] at this; omega
  have hjm : j < m := by
    have := hj; rw [List.length_take] at this; omega
  refine ⟨j, hjl, hjm, ?_⟩
  rw [← hje]
  exact (List.getElem_take l).symm

theorem firstCellIdx_contains {css : List (List Nat)} {v : Nat}
    (hv : v ∈ css.flatten) :
    ∃ h : firstCellIdx css v < css.length, v ∈ css[firstCellIdx css v] := by
  rcases List.mem_flatten.mp hv with ⟨c, hc, hvc⟩
  have hlt : css.findIdx (fun c => c.contains v) < css.length :=
    List.findIdx_lt_length_of_exists ⟨c, hc, List.elem_iff.mpr hvc⟩
  refine ⟨hlt, ?_⟩
  have hp := @List.findIdx_get _ (fun c => c.contains v) css hlt
  exact List.elem_iff.mp hp

theorem firstCell_indexOf (css : List (List Nat)) (u v : Nat)
    (hu : u ∈ css.flatten) (hv : v ∈ css.flatten)
    (hlt : firstCellIdx css u < firstCellIdx css v) :
    (firsts css.flatten).indexOf u < (firsts css.flatten).indexOf v := by
  obtain ⟨hkl, humem⟩ := firstCellIdx_contains hu
  have hsplit : css.flatten =
      (css.take (firstCellIdx css v)).flatten ++
        (css.drop (firstCellIdx css v)).flatten := by
    rw [← List.flatten_append, List.take_append_drop]
  have hua : u ∈ (css.take (firstCellIdx css v)).flatten :=
    List.mem_flatten.mpr ⟨css[firstCellIdx css u],
      mem_take_of_lt css _ _ hkl hlt, humem⟩
  have hva : v ∉ (css.take (firstCellIdx css v)).flatten := by
    intro hcon
    rcases List.mem_flatten.mp hcon with ⟨c, hc, hvc⟩
    obtain ⟨j, hjl, hjm, hje⟩ := take_mem_idx css _ c hc
    have hjm2 : j < css.findIdx (fun c => c.contains v) := hjm
    have hnp := @List.not_of_lt_findIdx _ (fun c => c.contains v) css j hjm2
    rw [hje] at hnp
    have htr : List.contains c v = true := List.elem_iff.mpr hvc
    rw [htr] at hnp
    exact Bool.noConfusion hnp
  rw [hsplit, firsts_append]
  have humem' : u ∈ firsts (css.take (firstCellIdx css v)).flatten :=
    (mem_firsts _ _).mpr hua
  have hvnmem : v ∉ firsts (css.take (firstCellIdx css v)).flatten :=
    fun h => hva ((mem_firsts _ _).mp h)
  rw [List.indexOf_append_of_mem humem', List.indexOf_append_of_not_mem hvnmem]
  have := List.indexOf_lt_length.mpr humem'
  omega

/-!
## Compaction preserves the reachable payloads
-/

theorem firsts_map_grank (l : List Nat) :
    firsts (l.map (grank l)) = List.range' 1 (firsts l).length := by
  rw [firsts_map (grank l) l (fun x hx y hy h => grank_inj hx hy h)]
  refine List.ext_getElem (by simp) ?_
  intro i h1 h2
  rw [List.getElem_map, List.getElem_range'_1, grank,
    List.indexOf_getElem (firsts_nodup l) i (by simpa using h1)]
  omega

theorem range_map_getD_cons (P : List UGridEntity) :
    (List.range' 1 P.length).map
      (fun j => (default :: P).getD j default) = P := by
  refine List.ext_getElem (by simp) ?_
  intro i h1 h2
  rw [List.getElem_map, List.getElem_range'_1, Nat.add_comm,
    List.getD_cons_succ, List.getD_eq_getElem _ _ h2]

theorem reachPayloads_optimizeSpec (g : UGrid) :
    (optimizeSpec g).reachPayloads = g.reachPayloads := by
  have h1 : (optimizeSpec g).chains.flatten =
      g.chains.flatten.map (grank g.chains.flatten) := by
    rw [chains_optimizeSpec, renumber_flatten]
  rw [UGrid.reachPayloads, h1, firsts_map_grank]
  have h2 : (firsts g.chains.flatten).length = (g.reachPayloads).length := by
    rw [UGrid.reachPayloads, List.length_map]
  rw [h2]
  have h3 : ∀ j : Nat, (optimizeSpec g).entAt j =
      (default :: g.reachPayloads).getD j default := fun j => rfl
  rw [List.map_congr_left (fun j _ => h3 j)]
  exact range_map_getD_cons _

/-!
## Renumbering preserves the co-occurring pair count
-/

theorem coPairs_mem : ∀ (css : List (List Nat)) (p : Nat × Nat),
    p ∈ coPairs css → p.1 ∈ css.flatten ∧ p.2 ∈ css.flatten ∧ p.1 < p.2
  | [], p, hp => by simp [coPairs] at hp
  | c :: cs, p, hp => by
    rw [coPairs_cons] at hp
    rcases Finset.mem_union.mp hp with h | h
    · rw [cellPairs, Finset.mem_filter, Finset.mem_product] at h
      obtain ⟨⟨h1, h2⟩, h3⟩ := h
      rw [List.mem_toFinset] at h1 h2
      exact ⟨List.mem_flatten.mpr ⟨c, List.mem_cons_self _ _, h1⟩,
        List.mem_flatten.mpr ⟨c, List.mem_cons_self _ _, h2⟩, by simpa using h3⟩
    · obtain ⟨h1, h2, h3⟩ := coPairs_mem cs p h
      rw [List.flatten_cons]
      exact ⟨List.mem_append_right _ h1, List.mem_append_right _ h2, h3⟩

theorem cellPairs_map (f : Nat → Nat) (c : List Nat)
    (hinj : ∀ a ∈ c, ∀ b ∈ c, f a = f b → a = b) :
    cellPairs (c.map f) =
      (cellPairs c).image
        (fun p => (min (f p.1) (f p.2), max (f p.1) (f p.2))) := by
  ext ⟨a, b⟩
  simp only [cellPairs, Finset.mem_filter, Finset.mem_product, Finset.mem_image,
    List.mem_toFinset, List.mem_map, decide_eq_true_eq]
  constructor
  · rintro ⟨⟨⟨u, hu, rfl⟩, ⟨v, hv, rfl⟩⟩, hltf⟩
    have huv : u ≠ v := fun h => by rw [h] at hltf; omega
    rcases Nat.lt_or_ge u v with h | h
    · refine ⟨(u, v), ⟨⟨hu, hv⟩, h⟩, ?_⟩
      dsimp only
      rw [Prod.mk.injEq]
      omega
    · have h' : v < u := by omega
      refine ⟨(v, u), ⟨⟨hv, hu⟩, h'⟩, ?_⟩
      dsimp only
      rw [Prod.mk.injEq]
      omega
  · rintro ⟨⟨u, v⟩, ⟨⟨hu, hv⟩, huv⟩, heq⟩
    dsimp only at heq
    rw [Prod.mk.injEq] at heq
    have hfne : f u ≠ f v := fun h => by
      have := hinj u hu v hv h
      omega
    rcases Nat.lt_or_ge (f u) (f v) with h | h
    · have ha : a = f u := by omega
      have hb : b = f v := by omega
      exact ⟨⟨⟨u, hu, ha.symm⟩, ⟨v, hv, hb.symm⟩⟩, by omega⟩
    · have h' : f v < f u := by omega
      have ha : a = f v := by omega
      have hb : b = f u := by omega
      exact ⟨⟨⟨v, hv, ha.symm⟩, ⟨u, hu, hb.symm⟩⟩, by omega⟩

theorem coPairs_map (f : Nat → Nat) : ∀ (css : List (List Nat)),
    (∀ a ∈ css.flatten, ∀ b ∈ css.flatten, f a = f b → a = b) →
    coPairs (css.map (List.map f)) =
      (coPairs css).image
        (fun p => (min (f p.1) (f p.2), max (f p.1) (f p.2)))
  | [], _ => by simp [coPairs]
  | c :: cs, hinj => by
    have hc : ∀ a ∈ c, ∀ b ∈ c, f a = f b → a = b := by
      intro a ha b hb
      exact hinj a (by rw [List.flatten_cons]; exact List.mem_append_left _ ha)
        b (by rw [List.flatten_cons]; exact List.mem_append_left _ hb)
    have hcs : ∀ a ∈ cs.flatten, ∀ b ∈ cs.flatten, f a = f b → a = b := by
      intro a ha b hb
      exact hinj a (by rw [List.flatten_cons]; exact List.mem_append_right _ ha)
        b (by rw [List.flatten_cons]; exact List.mem_append_right _ hb)
    rw [List.map_cons, coPairs_cons, coPairs_cons, Finset.image_union,
      cellPairs_map f c hc, coPairs_map f cs hcs]

theorem coPairs_renumber_card (css : List (List Nat)) :
    (coPairs (renumber css)).card = (coPairs css).card := by
  have hinj : ∀ a ∈ css.flatten, ∀ b ∈ css.flatten,
      grank css.flatten a = grank css.flatten b → a = b :=
    fun a ha b hb h => grank_inj ha hb h
  rw [renumber, coPairs_map (grank css.flatten) css hinj]
  refine Finset.card_image_of_injOn ?_
  intro p hp q hq heq
  rw [Finset.mem_coe] at hp hq
  obtain ⟨hp1, hp2, hp3⟩ := coPairs_mem css p hp
  obtain ⟨hq1, hq2, hq3⟩ := coPairs_mem css q hq
  dsimp only at heq
  rw [Prod.mk.injEq] at heq
  have hne1 : grank css.flatten p.1 ≠ grank css.flatten p.2 := by
    intro h
    have := hinj _ hp1 _ hp2 h
    omega
  have hne2 : grank css.flatten q.1 ≠ grank css.flatten q.2 := by
    intro h
    have := hinj _ hq1 _ hq2 h
    omega
  have hcases : (grank css.flatten p.1 = grank css.flatten q.1 ∧
      grank css.flatten p.2 = grank css.flatten q.2) ∨
      (grank css.flatten p.1 = grank css.flatten q.2 ∧
        grank css.flatten p.2 = grank css.flatten q.1) := by
    omega
  rcases hcases with ⟨h1, h2⟩ | ⟨h1, h2⟩
  · have e1 := hinj _ hp1 _ hq1 h1
    have e2 := hinj _ hp2 _ hq2 h2
    exact Prod.ext e1 e2
  · have e1 := hinj _ hp1 _ hq2 h1
    have e2 := hinj _ hp2 _ hq1 h2
    omega

/-!
## Remaining small helpers
-/

theorem chains_nodup (g : UGrid) (hg : WF g) : ∀ c ∈ g.chains, c.Nodup := by
  intro c hc
  rcases List.mem_map.mp hc with ⟨ci, hci, rfl⟩
  rw [List.mem_range] at hci
  exact hg.nodup ci hci

theorem chainRefs_pos (refs : List UGridReference) :
    ∀ (fuel i : Nat), ∀ j ∈ chainRefs refs fuel i, 1 ≤ j := by
  intro fuel
  induction fuel with
  | zero => intro i j hj; rw [chainRefs] at hj; simp at hj
  | succ fuel ih =>
    intro i j hj
    rw [chainRefs] at hj
    by_cases hi : i = 0
    · rw [if_pos hi] at hj; simp at hj
    · rw [if_neg hi] at hj
      rcases List.mem_cons.mp hj with rfl | hj
      · omega
      · exact ih _ j hj

theorem rectCells_mem (g : UGrid) (e : UGridEntity) (c : Nat) :
    c ∈ g.rectCells e ↔ ∃ x y,
      (g.insStart e).X ≤ x ∧ x ≤ (g.insEnd e).X ∧
      (g.insStart e).Y ≤ y ∧ y ≤ (g.insEnd e).Y ∧
      c = (x * g.GridCells.Y + y) % U32 := by
  rw [UGrid.rectCells]
  constructor
  · intro hc
    rcases List.mem_flatMap.mp hc with ⟨x, hx, hcm⟩
    rcases List.mem_map.mp hcm with ⟨y, hy, rfl⟩
    obtain ⟨hx1, hx2⟩ := List.mem_range'_1.mp hx
    obtain ⟨hy1, hy2⟩ := List.mem_range'_1.mp hy
    exact ⟨x, y, hx1, by omega, hy1, by omega, rfl⟩
  · rintro ⟨x, y, h1, h2, h3, h4, rfl⟩
    exact List.mem_flatMap.mpr ⟨x, List.mem_range'_1.mpr ⟨h1, by omega⟩,
      List.mem_map.mpr ⟨y, List.mem_range'_1.mpr ⟨h3, by omega⟩, rfl⟩⟩

/-!
## Evaluating the concrete scenario grids

Kernel reduction is stuck on rational arithmetic, so the concrete grids
built through `Insert` are evaluated through the proved machinery: the
`PosToCell` corners by `norm_num`, the chain contents by `insert_spec`,
and the final counts by `decide` on the resulting integer lists.
-/

theorem insert_fields (g : UGrid) (e : UGridEntity) :
    (g.Insert e).GridCells = g.GridCells ∧
    (g.Insert e).CellDim = g.CellDim ∧
    (g.Insert e).InverseCellDim = g.InverseCellDim := by
  rw [insert_eq_rect]
  exact foldl_insert_fields g.Entities.length (g.rectCells e)
    { g with Entities := g.Entities ++ [e] }

theorem posToCell_congr (g g2 : UGrid) (h1 : g2.GridCells = g.GridCells)
    (h2 : g2.InverseCellDim = g.InverseCellDim) (p : UGridPos) :
    g2.PosToCell p = g.PosToCell p := by
  rw [UGrid.PosToCell, UGrid.PosToCell, h1, h2]

theorem rectCells_congr (g g2 : UGrid) (e : UGridEntity)
    (h1 : g2.GridCells = g.GridCells)
    (h2 : g2.InverseCellDim = g.InverseCellDim) :
    g2.rectCells e = g.rectCells e := by
  simp only [UGrid.rectCells, UGrid.insStart, UGrid.insEnd,
    posToCell_congr g g2 h1 h2, h1]

theorem tick_eq_scan (g : UGrid) (h : Reach g) :
    (g.Tick).2 = scanPure 0 (renumber g.chains) := by
  have hri := reach_rinv g h
  have heq := optimize_eq_spec g hri.wf
  have hwf2 : WF g.Optimize := by rw [heq]; exact wf_optimizeSpec g hri.wf
  show (g.Optimize).scanCount = _
  rw [scanCount_eq _ hwf2]
  have hch : (g.Optimize).chains = renumber g.chains := by
    rw [heq]; exact chains_optimizeSpec g
  rw [hch]

theorem reach_gNarrow : Reach gNarrow :=
  Reach.init ⟨1, 2⟩ ⟨1, 1⟩ (by norm_num [U32])

theorem reach_gUnit : Reach gUnit :=
  Reach.init ⟨1, 1⟩ ⟨1, 1⟩ (by norm_num [U32])

theorem start_upper : gNarrow.insStart entUpper = ⟨0, 1⟩ := by
  rw [UGrid.insStart, UGrid.PosToCell]
  dsimp only
  have hx : ratTrunc (max (entUpper.Pos.X - entUpper.Dim.W) 0
      * gNarrow.InverseCellDim.W) = 0 := by
    show (⌊max ((1:ℚ)/2 - 0) 0 * (1 / (1:ℚ))⌋).toNat = 0
    norm_num
  have hy : ratTrunc (max (entUpper.Pos.Y - entUpper.Dim.H) 0
      * gNarrow.InverseCellDim.H) = 1 := by
    show (⌊max ((3:ℚ)/2 - 0) 0 * (1 / (1:ℚ))⌋).toNat = 1
    norm_num
  rw [hx, hy]
  decide

theorem stop_upper : gNarrow.insEnd entUpper = ⟨0, 1⟩ := by
  rw [UGrid.insEnd, UGrid.PosToCell]
  dsimp only
  have hx : ratTrunc (max (entUpper.Pos.X + entUpper.Dim.W) 0
      * gNarrow.InverseCellDim.W) = 0 := by
    show (⌊max ((1:ℚ)/2 + 0) 0 * (1 / (1:ℚ))⌋).toNat = 0
    norm_num
  have hy : ratTrunc (max (entUpper.Pos.Y + entUpper.Dim.H) 0
      * gNarrow.InverseCellDim.H) = 1 := by
    show (⌊max ((3:ℚ)/2 + 0) 0 * (1 / (1:ℚ))⌋).toNat = 1
    norm_num
  rw [hx, hy]
  decide

theorem start_tall : gNarrow.insStart entTall = ⟨0, 0⟩ := by
  rw [UGrid.insStart, UGrid.PosToCell]
  dsimp only
  have hx : ratTrunc (max (entTall.Pos.X - entTall.Dim.W) 0
      * gNarrow.InverseCellDim.W) = 0 := by
    show (⌊max ((1:ℚ)/2 - 0) 0 * (1 / (1:ℚ))⌋).toNat = 0
    norm_num
  have hy : ratTrunc (max (entTall.Pos.Y - entTall.Dim.H) 0
      * gNarrow.InverseCellDim.H) = 0 := by
    show (⌊max ((1:ℚ) - 1/2) 0 * (1 / (1:ℚ))⌋).toNat = 0
    norm_num
  rw [hx, hy]
  decide

theorem stop_tall : gNarrow.insEnd entTall = ⟨0, 1⟩ := by
  rw [UGrid.insEnd, UGrid.PosToCell]
  dsimp only
  have hx : ratTrunc (max (entTall.Pos.X + entTall.Dim.W) 0
      * gNarrow.InverseCellDim.W) = 0 := by
    show (⌊max ((1:ℚ)/2 + 0) 0 * (1 / (1:ℚ))⌋).toNat = 0
    norm_num
  have hy : ratTrunc (max (entTall.Pos.Y + entTall.Dim.H) 0
      * gNarrow.InverseCellDim.H) = 1 := by
    show (⌊max ((1:ℚ) + 1/2) 0 * (1 / (1:ℚ))⌋).toNat = 1
    norm_num
  rw [hx, hy]
  decide

theorem start_point : gUnit.insStart ePoint = ⟨0, 0⟩ := by
  rw [UGrid.insStart, UGrid.PosToCell]
  dsimp only
  have hx : ratTrunc (max (ePoint.Pos.X - ePoint.Dim.W) 0
      * gUnit.InverseCellDim.W) = 0 := by
    show (⌊max ((0:ℚ) - 0) 0 * (1 / (1:ℚ))⌋).toNat = 0
    norm_num
  have hy : ratTrunc (max (ePoint.Pos.Y - ePoint.Dim.H) 0
      * gUnit.InverseCellDim.H) = 0 := by
    show (⌊max ((0:ℚ) - 0) 0 * (1 / (1:ℚ))⌋).toNat = 0
    norm_num
  rw [hx, hy]
  decide

theorem stop_point : gUnit.insEnd ePoint = ⟨0, 0⟩ := by
  rw [UGrid.insEnd, UGrid.PosToCell]
  dsimp only
  have hx : ratTrunc (max (ePoint.Pos.X + ePoint.Dim.W) 0
      * gUnit.InverseCellDim.W) = 0 := by
    show (⌊max ((0:ℚ) + 0) 0 * (1 / (1:ℚ))⌋).toNat = 0
    norm_num
  have hy : ratTrunc (max (ePoint.Pos.Y + ePoint.Dim.H) 0
      * gUnit.InverseCellDim.H) = 0 := by
    show (⌊max ((0:ℚ) + 0) 0 * (1 / (1:ℚ))⌋).toNat = 0
    norm_num
  rw [hx, hy]
  decide

theorem rect_upper : gNarrow.rectCells entUpper = [1] := by
  have hgy : gNarrow.GridCells.Y = 2 := rfl
  simp only [UGrid.rectCells, start_upper, stop_upper, hgy]
  decide

theorem rect_tall : gNarrow.rectCells entTall = [0, 1] := by
  have hgy : gNarrow.GridCells.Y = 2 := rfl
  simp only [UGrid.rectCells, start_tall, stop_tall, hgy]
  decide

theorem rect_point : gUnit.rectCells ePoint = [0] := by
  have hgy : gUnit.GridCells.Y = 1 := rfl
  simp only [UGrid.rectCells, start_point, stop_point, hgy]
  decide

theorem gDemo_chains : gDemo.chains = [[2], [2, 1]] := by
  obtain ⟨r1, e1, l1, gc1, rect1⟩ :=
    insert_spec gNarrow entUpper (reach_rinv _ reach_gNarrow) rfl
  obtain ⟨in1, out1⟩ := rect1 (by decide) (by decide)
  obtain ⟨gcf1, _, icd1⟩ := insert_fields gNarrow entUpper
  have hc10 : (gNarrow.Insert entUpper).chainEnts 0 = [] := by
    rw [out1 0 (by rw [rect_upper]; decide)]
    decide
  have hc11 : (gNarrow.Insert entUpper).chainEnts 1 = [1] := by
    rw [in1 1 (by rw [rect_upper]; decide)]
    decide
  have hlen1 : (gNarrow.Insert entUpper).Entities.length = 2 := by
    rw [e1, List.length_append]
    decide
  have hrt : (gNarrow.Insert entUpper).rectCells entTall =
      gNarrow.rectCells entTall :=
    rectCells_congr gNarrow _ entTall gcf1 icd1
  obtain ⟨r2, e2, l2, gc2, rect2⟩ :=
    insert_spec (gNarrow.Insert entUpper) entTall r1 rfl
  obtain ⟨in2, out2⟩ := rect2 (by rw [gcf1]; decide) (by rw [gcf1]; decide)
  have hc20 : gDemo.chainEnts 0 = [2] := by
    have h := in2 0 (by rw [hrt, rect_tall]; decide)
    rw [gDemo, h, hlen1, hc10]
  have hc21 : gDemo.chainEnts 1 = [2, 1] := by
    have h := in2 1 (by rw [hrt, rect_tall]; decide)
    rw [gDemo, h, hlen1, hc11]
  have hlen : gDemo.Cells.length = 2 := by
    rw [gDemo, l2, l1]
    decide
  rw [UGrid.chains, hlen]
  show [gDemo.chainEnts 0, gDemo.chainEnts 1] = _
  rw [hc20, hc21]

theorem reach_gDemo : Reach gDemo :=
  Reach.insert _ entTall (Reach.insert _ entUpper reach_gNarrow rfl) rfl

theorem gDemo_tick0 : (gDemo.Tick).2 = 0 := by
  rw [tick_eq_scan gDemo reach_gDemo, gDemo_chains]
  decide

theorem gDemo_coPairs1 : gDemo.coPairCount = 1 := by
  rw [UGrid.coPairCount, gDemo_chains]
  decide

theorem gPair_chains : gPair.chains = [[2, 1]] := by
  obtain ⟨r1, e1, l1, gc1, rect1⟩ :=
    insert_spec gUnit ePoint (reach_rinv _ reach_gUnit) rfl
  obtain ⟨in1, out1⟩ := rect1 (by decide) (by decide)
  obtain ⟨gcf1, _, icd1⟩ := insert_fields gUnit ePoint
  have hc10 : (gUnit.Insert ePoint).chainEnts 0 = [1] := by
    rw [in1 0 (by rw [rect_point]; decide)]
    decide
  have hlen1 : (gUnit.Insert ePoint).Entities.length = 2 := by
    rw [e1, List.length_append]
    decide
  have hrt : (gUnit.Insert ePoint).rectCells ePoint = gUnit.rectCells ePoint :=
    rectCells_congr gUnit _ ePoint gcf1 icd1
  obtain ⟨r2, e2, l2, gc2, rect2⟩ :=
    insert_spec (gUnit.Insert ePoint) ePoint r1 rfl
  obtain ⟨in2, out2⟩ := rect2 (by rw [gcf1]; decide) (by rw [gcf1]; decide)
  have hc20 : gPair.chainEnts 0 = [2, 1] := by
    have h := in2 0 (by rw [hrt, rect_point]; decide)
    rw [gPair, h, hlen1, hc10]
  have hlen : gPair.Cells.length = 1 := by
    rw [gPair, l2, l1]
    decide
  rw [UGrid.chains, hlen]
  show [gPair.chainEnts 0] = _
  rw [hc20]

theorem reach_gPair : Reach gPair :=
  Reach.insert _ ePoint (Reach.insert _ ePoint reach_gUnit rfl) rfl

theorem gPair_tick1 : (gPair.Tick).2 = 1 := by
  rw [tick_eq_scan gPair reach_gPair, gPair_chains]
  decide

theorem gNarrow_tick0 : (gNarrow.Tick).2 = 0 := by decide

/-!
# Claim theorems
-/

/-- Claim C1 (corrected).  The spec asserts the `Tick` scan counts every
co-occurring unordered entity pair exactly once.  The watermark shortcut in
fact under-counts: a pair whose two members are both first discovered in
cells scanned earlier (in different cells) is skipped — `gDemo` exhibits
this.  What does hold on every reachable grid is the
one-sided bound: the scan never over-counts — no pair is double-counted,
so the count is at most the number of co-occurring pairs. -/
theorem c1_tick_count_le_coPairs (g : UGrid) (h : Reach g) :
    (g.Tick).2 ≤ g.coPairCount := by
  have hri := reach_rinv g h
  have heq := optimize_eq_spec g hri.wf
  have hwf2 : WF g.Optimize := by rw [heq]; exact wf_optimizeSpec g hri.wf
  show (g.Optimize).scanCount ≤ g.coPairCount
  rw [scanCount_eq _ hwf2]
  have hch : (g.Optimize).chains = renumber g.chains := by
    rw [heq]; exact chains_optimizeSpec g
  rw [hch]
  have hnd : ∀ c ∈ renumber g.chains, c.Nodup := by
    rw [← hch]; exact chains_nodup _ hwf2
  calc scanPure 0 (renumber g.chains) ≤ (coPairs (renumber g.chains)).card :=
      scanPure_le_coPairs _ hnd
    _ = g.coPairCount := coPairs_renumber_card g.chains

/-- Witness for C1: the bound instantiated at the concrete reachable grid
`gDemo`, its `Reach` hypothesis discharged by the constructor chain. -/
theorem c1_tick_count_le_coPairs_witness :
    Reach gDemo ∧ (gDemo.Tick).2 ≤ gDemo.coPairCount :=
  ⟨Reach.insert _ entTall
      (Reach.insert _ entUpper (Reach.init ⟨1, 2⟩ ⟨1, 1⟩ (by norm_num [U32])) rfl)
      rfl,
    c1_tick_count_le_coPairs gDemo
      (Reach.insert _ entTall
        (Reach.insert _ entUpper (Reach.init ⟨1, 2⟩ ⟨1, 1⟩ (by norm_num [U32])) rfl)
        rfl)⟩

/-- Counterexample to the equality claimed by C1: in `gDemo` the entities
`entUpper` and `entTall` co-occur in the upper cell (one co-occurring pair),
but the scan reports 0 — after compaction the lower cell is scanned first
and raises the watermark past both renumbered indices, so the pair in the
upper cell is skipped. -/
theorem c1_count_can_miss_pairs :
    (gDemo.Tick).2 = 0 ∧ gDemo.coPairCount = 1 :=
  ⟨gDemo_tick0, gDemo_coPairs1⟩

/-- Claim C2 (corrected).  `Tick` does run the compaction pass first, and it
computes the collision count of the compacted grid — but it does not return
that count to its caller: the C++ declaration is `void Tick()`, so the
result value is the unit value and the count is only streamed to standard
output.  The theorem records the actual behaviour: the state after the call
is the compacted grid, the computed count is the pure scan of the compacted
chains, and the count reaches the caller only via the printed line. -/
theorem c2_tick_compacts_and_prints (g : UGrid) (h : Reach g) :
    UGrid.TickRet g = () ∧
    (g.Tick).1 = g.Optimize ∧
    (g.Tick).2 = scanPure 0 (g.Optimize).chains ∧
    g.TickOut = toString (scanPure 0 (g.Optimize).chains)
      ++ " registered broad collisions" := by
  have hri := reach_rinv g h
  have heq := optimize_eq_spec g hri.wf
  have hwf2 : WF g.Optimize := by rw [heq]; exact wf_optimizeSpec g hri.wf
  have hcount : (g.Tick).2 = scanPure 0 (g.Optimize).chains := by
    show (g.Optimize).scanCount = _
    exact scanCount_eq _ hwf2
  refine ⟨rfl, rfl, hcount, ?_⟩
  rw [UGrid.TickOut, hcount]

/-- Witness for C2 at the concrete reachable grid `gOneCell`. -/
theorem c2_tick_compacts_and_prints_witness :
    Reach gOneCell ∧
    (UGrid.TickRet gOneCell = () ∧
      (gOneCell.Tick).1 = gOneCell.Optimize ∧
      (gOneCell.Tick).2 = scanPure 0 (gOneCell.Optimize).chains ∧
      gOneCell.TickOut = toString (scanPure 0 (gOneCell.Optimize).chains)
        ++ " registered broad collisions") :=
  ⟨Reach.insert _ ⟨⟨12, 12⟩, ⟨5, 5⟩, 0⟩
      (Reach.insert _ ⟨⟨10, 10⟩, ⟨5, 5⟩, 0⟩
        (Reach.init ⟨1, 1⟩ ⟨100, 100⟩ (by norm_num [U32])) rfl) rfl,
    c2_tick_compacts_and_prints gOneCell
      (Reach.insert _ ⟨⟨12, 12⟩, ⟨5, 5⟩, 0⟩
        (Reach.insert _ ⟨⟨10, 10⟩, ⟨5, 5⟩, 0⟩
          (Reach.init ⟨1, 1⟩ ⟨100, 100⟩ (by norm_num [U32])) rfl) rfl)⟩

/-- Counterexample to the return-value part of C2: two reachable grids whose
collision counts differ (1 for `gPair`, 0 for the empty `gNarrow`), yet whose
`Tick` return values are identical — `void Tick()` hands nothing back, so
the result value cannot be the collision pair count. -/
theorem c2_tick_returns_nothing :
    UGrid.TickRet gPair = UGrid.TickRet gNarrow ∧
    (gPair.Tick).2 ≠ (gNarrow.Tick).2 := by
  constructor
  · show (() : Unit) = ()
    rfl
  · rw [gPair_tick1, gNarrow_tick0]
    decide

/-- Claim C3 (confirmed).  On every reachable grid, compaction preserves the
reachable entity payloads — the list of distinct reachable entity records in
discovery order is unchanged, so no entity is lost and none is duplicated —
and the indices it assigns are monotone in first-discovery order: an entity
first discovered in an earlier-scanned cell gets an index at most that of
one first discovered in a later-scanned cell. -/
theorem c3_optimize_reachable_monotone (g : UGrid) (h : Reach g) :
    (g.Optimize).reachPayloads = g.reachPayloads ∧
    ∀ u ∈ (g.Optimize).chains.flatten, ∀ v ∈ (g.Optimize).chains.flatten,
      firstCellIdx (g.Optimize).chains u < firstCellIdx (g.Optimize).chains v →
      u ≤ v := by
  have hri := reach_rinv g h
  have heq := optimize_eq_spec g hri.wf
  constructor
  · rw [heq]
    exact reachPayloads_optimizeSpec g
  · intro u hu v hv hlt
    rw [heq, chains_optimizeSpec] at hu hv hlt
    have hcan := canonical_renumber g.chains
    have hgu := hcan u hu
    have hgv := hcan v hv
    have hidx := firstCell_indexOf (renumber g.chains) u v hu hv hlt
    rw [grank] at hgu hgv
    omega

/-- Witness for C3 at the concrete reachable grid `gDemo`. -/
theorem c3_optimize_reachable_monotone_witness :
    Reach gDemo ∧
    ((gDemo.Optimize).reachPayloads = gDemo.reachPayloads ∧
      ∀ u ∈ (gDemo.Optimize).chains.flatten,
        ∀ v ∈ (gDemo.Optimize).chains.flatten,
          firstCellIdx (gDemo.Optimize).chains u <
            firstCellIdx (gDemo.Optimize).chains v → u ≤ v) :=
  ⟨Reach.insert _ entTall
      (Reach.insert _ entUpper (Reach.init ⟨1, 2⟩ ⟨1, 1⟩ (by norm_num [U32])) rfl)
      rfl,
    c3_optimize_reachable_monotone gDemo
      (Reach.insert _ entTall
        (Reach.insert _ entUpper (Reach.init ⟨1, 2⟩ ⟨1, 1⟩ (by norm_num [U32])) rfl)
        rfl)⟩

/-- Claim C4 (code bug).  The spec says both passes only touch head entries
at indices `0 .. CellCountX * CellCountY - 1`.  The source loops read
`for (Cell = Cells; Cell <= CellsEnd; ++Cell)` with
`CellsEnd = Cells + CellsNum` — the bound is inclusive, so `Optimize` and
`Tick` both dereference the head one past the table.  In the model: the
visited index list of both passes (`scannedCells`, folded over by `Optimize`
and by the scan) always contains the out-of-range index `Cells.length`, made
concrete on a freshly constructed one-cell grid. -/
theorem c4_scan_reads_past_table (g : UGrid) :
    g.scannedCells.length = g.Cells.length + 1 ∧
    g.Cells.length ∈ g.scannedCells ∧
    ¬ g.Cells.length < g.Cells.length ∧
    (mkGrid ⟨1, 1⟩ ⟨1, 1⟩).scannedCells = [0, 1] ∧
    (mkGrid ⟨1, 1⟩ ⟨1, 1⟩).Cells.length = 1 := by
  refine ⟨?_, ?_, ?_, ?_, ?_⟩
  · rw [UGrid.scannedCells, List.length_range]
  · rw [UGrid.scannedCells]
    exact List.mem_range.mpr (Nat.lt_succ_self _)
  · omega
  · decide
  · decide

/-- Claim C5 (confirmed).  For a reachable grid with at least one cell on
each axis, `Insert` prepends exactly one new link record — whose referent is
the index of the freshly appended entity — to the chain of every cell in
the inclusive rectangle `[Start, End]` computed from the bounding box, and
leaves the chain of every other cell untouched.  The rectangle is
characterised explicitly as the row-major indices with
`Start.X ≤ x ≤ End.X` and `Start.Y ≤ y ≤ End.Y`. -/
theorem c5_insert_rect_prepend (g : UGrid) (e : UGridEntity) (h : Reach g)
    (he : e.Copied = 0)
    (hx : 1 ≤ g.GridCells.X) (hy : 1 ≤ g.GridCells.Y) :
    (∀ c, c ∈ g.rectCells e ↔ ∃ x y,
      (g.insStart e).X ≤ x ∧ x ≤ (g.insEnd e).X ∧
      (g.insStart e).Y ≤ y ∧ y ≤ (g.insEnd e).Y ∧
      c = (x * g.GridCells.Y + y) % U32) ∧
    (g.Insert e).Entities = g.Entities ++ [e] ∧
    (∀ c ∈ g.rectCells e,
      (g.Insert e).chainEnts c = g.Entities.length :: g.chainEnts c) ∧
    (∀ c, c ∉ g.rectCells e → (g.Insert e).chainEnts c = g.chainEnts c) := by
  obtain ⟨_, hents, _, _, hrect⟩ := insert_spec g e (reach_rinv g h) he
  obtain ⟨hin, hout⟩ := hrect hx hy
  exact ⟨fun c => rectCells_mem g e c, hents, hin, hout⟩

/-- Witness for C5: `entUpper` inserted into the empty 1-by-2 grid. -/
theorem c5_insert_rect_prepend_witness :
    Reach gNarrow ∧ entUpper.Copied = 0 ∧
    1 ≤ gNarrow.GridCells.X ∧ 1 ≤ gNarrow.GridCells.Y ∧
    ((∀ c, c ∈ gNarrow.rectCells entUpper ↔ ∃ x y,
        (gNarrow.insStart entUpper).X ≤ x ∧ x ≤ (gNarrow.insEnd entUpper).X ∧
        (gNarrow.insStart entUpper).Y ≤ y ∧ y ≤ (gNarrow.insEnd entUpper).Y ∧
        c = (x * gNarrow.GridCells.Y + y) % U32) ∧
      (gNarrow.Insert entUpper).Entities = gNarrow.Entities ++ [entUpper] ∧
      (∀ c ∈ gNarrow.rectCells entUpper,
        (gNarrow.Insert entUpper).chainEnts c =
          gNarrow.Entities.length :: gNarrow.chainEnts c) ∧
      (∀ c, c ∉ gNarrow.rectCells entUpper →
        (gNarrow.Insert entUpper).chainEnts c = gNarrow.chainEnts c)) :=
  ⟨Reach.init ⟨1, 2⟩ ⟨1, 1⟩ (by norm_num [U32]), rfl, by decide, by decide,
    c5_insert_rect_prepend gNarrow entUpper
      (Reach.init ⟨1, 2⟩ ⟨1, 1⟩ (by norm_num [U32])) rfl (by decide) (by decide)⟩

/-- Claim C6 (confirmed).  For any grid whose per-axis cell counts are
positive and fit in `uint32` (so the `GridCells - 1` subtraction does not
wrap), `PosToCell` computes exactly clamp-to-zero, scale, truncate,
clamp-to-`CellCount - 1` on each axis: the result always lies inside the
grid, and a non-positive coordinate collapses to cell 0 on that axis —
out-of-bounds positions land in a border cell instead of being rejected. -/
theorem c6_posToCell_clamps (g : UGrid) (p : UGridPos)
    (hx1 : 1 ≤ g.GridCells.X) (hx2 : g.GridCells.X ≤ U32)
    (hy1 : 1 ≤ g.GridCells.Y) (hy2 : g.GridCells.Y ≤ U32) :
    (g.PosToCell p).X =
      min (g.GridCells.X - 1) (ratTrunc (max p.X 0 * g.InverseCellDim.W)) ∧
    (g.PosToCell p).Y =
      min (g.GridCells.Y - 1) (ratTrunc (max p.Y 0 * g.InverseCellDim.H)) ∧
    (g.PosToCell p).X < g.GridCells.X ∧
    (g.PosToCell p).Y < g.GridCells.Y ∧
    (p.X ≤ 0 → (g.PosToCell p).X = 0) ∧
    (p.Y ≤ 0 → (g.PosToCell p).Y = 0) := by
  have ex : (g.PosToCell p).X =
      min (g.GridCells.X - 1) (ratTrunc (max p.X 0 * g.InverseCellDim.W)) := by
    show min (u32sub1 g.GridCells.X)
      (ratTrunc (max p.X 0 * g.InverseCellDim.W)) = _
    rw [u32sub1_eq hx1 hx2]
  have ey : (g.PosToCell p).Y =
      min (g.GridCells.Y - 1) (ratTrunc (max p.Y 0 * g.InverseCellDim.H)) := by
    show min (u32sub1 g.GridCells.Y)
      (ratTrunc (max p.Y 0 * g.InverseCellDim.H)) = _
    rw [u32sub1_eq hy1 hy2]
  refine ⟨ex, ey, ?_, ?_, ?_, ?_⟩
  · rw [ex]
    have h := min_le_left (g.GridCells.X - 1)
      (ratTrunc (max p.X 0 * g.InverseCellDim.W))
    omega
  · rw [ey]
    have h := min_le_left (g.GridCells.Y - 1)
      (ratTrunc (max p.Y 0 * g.InverseCellDim.H))
    omega
  · intro hp
    rw [ex, max_eq_right hp, zero_mul]
    have h0 : ratTrunc 0 = 0 := by decide
    rw [h0]
    omega
  · intro hp
    rw [ey, max_eq_right hp, zero_mul]
    have h0 : ratTrunc 0 = 0 := by decide
    rw [h0]
    omega

/-- Witness for C6: a point with one negative coordinate, far outside the
1-by-2 grid, clamps to the border cell. -/
theorem c6_posToCell_clamps_witness :
    (1 ≤ gNarrow.GridCells.X ∧ gNarrow.GridCells.X ≤ U32 ∧
      1 ≤ gNarrow.GridCells.Y ∧ gNarrow.GridCells.Y ≤ U32) ∧
    ((gNarrow.PosToCell ⟨-3, 7⟩).X =
      min (gNarrow.GridCells.X - 1)
        (ratTrunc (max (-3 : ℚ) 0 * gNarrow.InverseCellDim.W)) ∧
    (gNarrow.PosToCell ⟨-3, 7⟩).Y =
      min (gNarrow.GridCells.Y - 1)
        (ratTrunc (max (7 : ℚ) 0 * gNarrow.InverseCellDim.H)) ∧
    (gNarrow.PosToCell ⟨-3, 7⟩).X < gNarrow.GridCells.X ∧
    (gNarrow.PosToCell ⟨-3, 7⟩).Y < gNarrow.GridCells.Y ∧
    ((-3 : ℚ) ≤ 0 → (gNarrow.PosToCell ⟨-3, 7⟩).X = 0) ∧
    ((7 : ℚ) ≤ 0 → (gNarrow.PosToCell ⟨-3, 7⟩).Y = 0)) :=
  ⟨⟨by decide, by decide, by decide, by decide⟩,
    c6_posToCell_clamps gNarrow ⟨-3, 7⟩
      (by decide) (by decide) (by decide) (by decide)⟩

/-- Claim C7 (confirmed).  Index 0 is the reserved sentinel of both slot
arenas: in every reachable arena state `Get` returns an index of at least 1
(the fresh-slot counter starts at 1 and the free list only ever holds
previously handed-out indices), and in every reachable grid every link
index stored in a chain and every referent stored in a link record is at
least 1 — 0 occurs only as the end-of-chain and empty-cell-head marker. -/
theorem c7_zero_index_sentinel (a : SlotArena) (ha : ReachArena a)
    (g : UGrid) (hg : Reach g) :
    1 ≤ (a.Get).1 ∧ 1 ≤ a.Used ∧
    (∀ i ∈ a.FreeList, 1 ≤ i) ∧
    ∀ ci < g.Cells.length, ∀ i ∈ g.chainIdxs ci,
      1 ≤ i ∧ 1 ≤ (g.refAt i).Ref ∧ (g.refAt i).Ref < g.Entities.length := by
  have hwf := (reach_rinv g hg).wf
  refine ⟨get_pos a ha, (arena_inv a ha).1,
    fun i hi => ((arena_inv a ha).2 i hi).1, ?_⟩
  intro ci hci i hi
  exact ⟨chainRefs_pos g.References _ _ i hi, hwf.ref_pos ci hci i hi,
    hwf.ref_lt ci hci i hi⟩

/-- Witness for C7: the freshly constructed arena and the empty 1-by-2
grid. -/
theorem c7_zero_index_sentinel_witness :
    ReachArena SlotArena.init ∧ Reach gNarrow ∧
    (1 ≤ (SlotArena.init.Get).1 ∧ 1 ≤ SlotArena.init.Used ∧
      (∀ i ∈ SlotArena.init.FreeList, 1 ≤ i) ∧
      ∀ ci < gNarrow.Cells.length, ∀ i ∈ gNarrow.chainIdxs ci,
        1 ≤ i ∧ 1 ≤ (gNarrow.refAt i).Ref ∧
          (gNarrow.refAt i).Ref < gNarrow.Entities.length) :=
  ⟨ReachArena.init, Reach.init ⟨1, 2⟩ ⟨1, 1⟩ (by norm_num [U32]),
    c7_zero_index_sentinel SlotArena.init ReachArena.init gNarrow
      (Reach.init ⟨1, 2⟩ ⟨1, 1⟩ (by norm_num [U32]))⟩

/-- Claim C8 (confirmed).  On every reachable grid a second `Tick` with no
intervening `Insert` reports the same collision count, because compacting an
already-compacted grid is the identity on the whole grid state — in
particular on the reachable entities and on every per-cell chain, contents
and order included. -/
theorem c8_retick_same_count (g : UGrid) (h : Reach g) :
    ((g.Tick).1.Tick).2 = (g.Tick).2 ∧
    (g.Tick).1.Optimize = (g.Tick).1 := by
  have hri := reach_rinv g h
  have hidem := optimize_idem g hri.wf
  constructor
  · show (g.Optimize.Optimize).scanCount = (g.Optimize).scanCount
    rw [hidem]
  · exact hidem

/-- Witness for C8 at the concrete reachable grid `gDemo`. -/
theorem c8_retick_same_count_witness :
    Reach gDemo ∧
    (((gDemo.Tick).1.Tick).2 = (gDemo.Tick).2 ∧
      (gDemo.Tick).1.Optimize = (gDemo.Tick).1) :=
  ⟨Reach.insert _ entTall
      (Reach.insert _ entUpper (Reach.init ⟨1, 2⟩ ⟨1, 1⟩ (by norm_num [U32])) rfl)
      rfl,
    c8_retick_same_count gDemo
      (Reach.insert _ entTall
        (Reach.insert _ entUpper (Reach.init ⟨1, 2⟩ ⟨1, 1⟩ (by norm_num [U32])) rfl)
        rfl)⟩

/-- Claim C9 (corrected).  The spec asks for malformed geometry to be
rejected at construction with a reported configuration error.  The
constructor has no validation path at all: it accepts every geometry,
stores it verbatim, allocates `X * Y mod 2^32` heads (zero heads for a
zero axis), and computes the inverse cell dimensions unconditionally —
there is no error to report and no rejected input. -/
theorem c9_ctor_never_rejects (cells : UGridCell) (dim : UGridDim) :
    (mkGrid cells dim).GridCells = cells ∧
    (mkGrid cells dim).CellDim = dim ∧
    (mkGrid cells dim).Cells.length = cells.X * cells.Y % U32 ∧
    (mkGrid cells dim).InverseCellDim = ⟨1 / dim.W, 1 / dim.H⟩ := by
  refine ⟨rfl, rfl, ?_, rfl⟩
  exact List.length_replicate _ _

/-- Counterexample to C9: a grid with a zero cell count on one axis is
accepted and produces a zero-sized cell table — and even runs `Tick` to
completion, reporting 0 collisions — instead of being rejected. -/
theorem c9_zero_geometry_accepted :
    (mkGrid ⟨0, 5⟩ ⟨1, 1⟩).Cells.length = 0 ∧
    (mkGrid ⟨0, 5⟩ ⟨1, 1⟩).GridCells = ⟨0, 5⟩ ∧
    ((mkGrid ⟨0, 5⟩ ⟨1, 1⟩).Tick).2 = 0 := by decide

/-- Claim C10 (confirmed).  Every entity record stored by a compaction pass
has its `Copied` scratch field equal to 0, for every grid whatsoever: the
source copies an entity into the new arena only under the `!Entity.Copied`
guard and before writing the old record, so the copy is always taken while
the field is still 0.  This re-establishes the precondition the next pass
relies on, for the stored records and for every index read. -/
theorem c10_optimize_resets_copied (g : UGrid) :
    (∀ rec ∈ (g.Optimize).Entities, rec.Copied = 0) ∧
    ∀ v : Nat, ((g.Optimize).entAt v).Copied = 0 := by
  refine ⟨optimize_copied_zero g, ?_⟩
  intro v
  rw [UGrid.entAt]
  by_cases hv : v < (g.Optimize).Entities.length
  · rw [List.getD_eq_getElem _ _ hv]
    exact optimize_copied_zero g _ (List.getElem_mem hv)
  · rw [List.getD_eq_default _ _ (Nat.le_of_not_lt hv)]
    rfl
